import Mathlib

/-!
Verification development for the korin regex core (sneppy/korin).

The C++ sources embedded here are:
 - src/korin/core/public/regex/automaton.h  (Automaton, AutomatonBuilder,
   AutomatonOptimizer)
 - src/korin/core/private/regex/regex.cpp   (the pattern driver Regex::compile)

The headers state.h and executor.h are not part of the provided sources; the
state kinds, the per-kind match semantics, the optimizer merge operations and
the NFA executor are modelled from the specification and marked as such in
their doc comments.

Symbols of the alphabet are modelled as natural number character codes (the
shipped driver instantiates the templates with ansichar).
-/

set_option maxRecDepth 100000

namespace Re

/-- Kind of an automaton state. Modelled from the spec: state.h is not among
the provided sources; the spec lists the kinds in section 4.1. Only the kinds
the shipped pattern driver (regex.cpp) can create are modelled: epsilon
states, the any state (matches every symbol except the zero symbol) and
symbol states. -/
inductive StateKind where
  | epsilon : StateKind
  | anySym : StateKind
  | symbol (c : Nat) : StateKind
deriving DecidableEq

/-- Shallow embedding of Re::Automaton (automaton.h). States are identified
by their allocation index: index 0 is the start state and index 1 is the
accepted state, both created by the constructor as epsilon states; indices
2, 3, ... are the states created by Automaton::pushState, in allocation order
(the allocatedStates list contains exactly those, not start/accept). Edges
form the insertion-ordered multiset of next-state links; the reciprocal
prev-state links of the C++ code are derived from the same list. The removed
field records states logically deleted by the optimizer merges (the C++ code
unlinks them; deallocation is left as a TODO there). -/
structure Automaton where
  kinds : List StateKind
  edges : List (Nat × Nat)
  removed : List Nat
  start : Nat
  accept : Nat
deriving DecidableEq

namespace Automaton

/-- Number of states ever created in the graph. -/
def numStates (g : Automaton) : Nat := g.kinds.length

/-- Kind of the state with the given index, epsilon as a default for an
index that does not name a state (never reached in well-formed flows). -/
def kindAt (g : Automaton) (u : Nat) : StateKind :=
  (g.kinds.get? u).getD .epsilon

/-- Whether the state is an epsilon state (the cast used by the optimizer). -/
def isEps (g : Automaton) (u : Nat) : Bool :=
  g.kinds.get? u == some .epsilon

/-- StateBase::addNextState: appends an edge; the prev back-edge is implied
by the shared edge list. -/
def addNext (g : Automaton) (u v : Nat) : Automaton :=
  { g with edges := g.edges ++ [(u, v)] }

/-- Outgoing transitions of a state (getNextStates), in insertion order. -/
def nextList (g : Automaton) (u : Nat) : List Nat :=
  (g.edges.filter fun q => q.1 == u).map Prod.snd

/-- Count of outgoing transitions (getNextStates().getCount()). -/
def nextCount (g : Automaton) (u : Nat) : Nat :=
  (g.edges.filter fun q => q.1 == u).length

/-- Count of incoming transitions (getPrevStates().getCount()). -/
def prevCount (g : Automaton) (u : Nat) : Nat :=
  (g.edges.filter fun q => q.2 == u).length

/-- Automaton::Automaton: creates the start state (index 0) and the accepted
state (index 1), both epsilon states; no edges yet. -/
def new : Automaton :=
  { kinds := [.epsilon, .epsilon], edges := [], removed := [], start := 0, accept := 1 }

/-- Automaton::pushState: allocates a state of the given kind, appending it
to the allocated list; returns its index and the new graph. -/
def pushNew (g : Automaton) (k : StateKind) : Nat × Automaton :=
  (g.kinds.length, { g with kinds := g.kinds ++ [k] })

end Automaton

/-- Per-kind single-symbol match. Modelled from the spec: epsilon matches no
symbol; any consumes one symbol and matches every symbol except the zero
symbol; symbol c consumes one symbol and matches exactly c. -/
def matchesSym (k : StateKind) (c : Nat) : Bool :=
  match k with
  | .epsilon => false
  | .anySym => c != 0
  | .symbol a => c == a

/-- Whether the state at index u is a consuming state whose predicate
accepts the symbol c. Modelled from the spec (executor.h is not among the
provided sources). -/
def consumes (g : Automaton) (u : Nat) (c : Nat) : Bool :=
  match g.kinds.get? u with
  | some k => matchesSym k c
  | none => false

/-- One expansion step of the epsilon closure: adds every target of an edge
whose source is in the frontier and is an epsilon state. Modelled from the
spec executor description. -/
def ecloseStep (g : Automaton) (F : Finset Nat) : Finset Nat :=
  F ∪ (g.edges.filterMap fun q =>
    if q.1 ∈ F ∧ g.isEps q.1 then some q.2 else none).toFinset

/-- Epsilon closure of a frontier: expansion iterated until the (bounded)
fixpoint; one more iteration than there are edges always suffices. Modelled
from the spec executor description. -/
def eclose (g : Automaton) (F : Finset Nat) : Finset Nat :=
  (ecloseStep g)^[g.edges.length + 1] F

/-- Targets reached by consuming the symbol c from the frontier: union of
the successors of every frontier state whose kind consumes and matches c.
Modelled from the spec executor description. -/
def consumeSet (g : Automaton) (F : Finset Nat) (c : Nat) : Finset Nat :=
  (g.edges.filterMap fun q =>
    if q.1 ∈ F ∧ consumes g q.1 c then some q.2 else none).toFinset

/-- Executor simulation from a given frontier: at end of input, accepted iff
the accepted state is in the frontier; otherwise consume one symbol, close
under epsilon, reject if the new frontier is empty. Modelled from the spec
executor description (Executor::step driven to completion). -/
def acceptsFrom (g : Automaton) (F : Finset Nat) : List Nat → Bool
  | [] => decide (g.accept ∈ F)
  | c :: rest =>
    let F2 := eclose g (consumeSet g F c)
    if F2 = ∅ then false else acceptsFrom g F2 rest

/-- Automaton::acceptString: run the executor from the epsilon closure of
the start state until a verdict is produced. -/
def Automaton.acceptString (g : Automaton) (input : List Nat) : Bool :=
  acceptsFrom g (eclose g {g.start}) input

/-- Shallow embedding of Re::AutomatonBuilder (automaton.h). The group
buffers are the two arrays of 127 state pointers; a none entry models a null
pointer (the C++ member init groupStart{startState} sets element 0 and
zero-initializes the rest). -/
structure AutomatonBuilder where
  automaton : Automaton
  currentState : Nat
  groupStart : Nat → Option Nat
  groupEnd : Nat → Option Nat
  currentGroup : Nat

namespace AutomatonBuilder

/-- Max number of groups (the fixed size of the group buffers). -/
def maxNumGroups : Nat := 127

/-- AutomatonBuilder::AutomatonBuilder: current state is the start state,
group buffers hold the start/accepted states at index 0 and null elsewhere,
and the current group index is 1. -/
def mk' (a : Automaton) : AutomatonBuilder :=
  { automaton := a
    currentState := a.start
    groupStart := fun i => if i = 0 then some a.start else none
    groupEnd := fun i => if i = 0 then some a.accept else none
    currentGroup := 1 }

/-- AutomatonBuilder::pushState: creates an epsilon state and a state of the
requested kind, links currentState to the epsilon and the epsilon to the new
state, makes the new state current, and records the pair as the temporary
group at the current group index. -/
def pushState (b : AutomatonBuilder) (k : StateKind) : AutomatonBuilder :=
  let (e, g1) := b.automaton.pushNew .epsilon
  let (s, g2) := g1.pushNew k
  let g3 := (g2.addNext b.currentState e).addNext e s
  { b with
    automaton := g3
    currentState := s
    groupStart := fun i => if i = b.currentGroup then some e else b.groupStart i
    groupEnd := fun i => if i = b.currentGroup then some s else b.groupEnd i }

/-- AutomatonBuilder::beginGroup: creates start/end epsilon states for the
group, links currentState to the group start and makes it current; the group
frame is pushed only while currentGroup < maxNumGroups - 1, otherwise the
frame push is silently skipped (the C++ else branch is an empty statement
with a TODO: Error comment). -/
def beginGroup (b : AutomatonBuilder) : AutomatonBuilder :=
  let (sg, g1) := b.automaton.pushNew .epsilon
  let (eg, g2) := g1.pushNew .epsilon
  let g3 := g2.addNext b.currentState sg
  if b.currentGroup < maxNumGroups - 1 then
    { b with
      automaton := g3
      currentState := sg
      groupStart := fun i => if i = b.currentGroup then some sg else b.groupStart i
      groupEnd := fun i => if i = b.currentGroup then some eg else b.groupEnd i
      currentGroup := b.currentGroup + 1 }
  else
    { b with automaton := g3, currentState := sg }

/-- AutomatonBuilder::endGroup: while currentGroup > 0, links currentState
to the end state of the group below the top, makes it current and pops the
frame; otherwise the call is a no-op returning the builder (the C++ else
branch is an empty statement with a TODO: Error comment). A none group end
would be a null dereference in C++; that configuration is unreachable in the
driver flows and is modelled as a no-op. -/
def endGroup (b : AutomatonBuilder) : AutomatonBuilder :=
  if 0 < b.currentGroup then
    match b.groupEnd (b.currentGroup - 1) with
    | some endState =>
      { b with
        automaton := b.automaton.addNext b.currentState endState
        currentState := endState
        currentGroup := b.currentGroup - 1 }
    | none => b
  else b

/-- AutomatonBuilder::pushBranch: links currentState to the end of the group
below the top and resets currentState to that group's start. A none frame
entry would be a null dereference in C++ and yields none here. -/
def pushBranch (b : AutomatonBuilder) : Option AutomatonBuilder :=
  match b.groupStart (b.currentGroup - 1), b.groupEnd (b.currentGroup - 1) with
  | some s, some e =>
    some { b with automaton := b.automaton.addNext b.currentState e, currentState := s }
  | _, _ => none

/-- AutomatonBuilder::pushJump: adds an edge from the end of the current
group to its start. A none frame entry would be a null dereference in C++
and yields none here. -/
def pushJump (b : AutomatonBuilder) : Option AutomatonBuilder :=
  match b.groupStart b.currentGroup, b.groupEnd b.currentGroup with
  | some s, some e =>
    some { b with automaton := b.automaton.addNext e s }
  | _, _ => none

end AutomatonBuilder

/-- Association lookup in the visited map of the clone traversal (old state
index to its clone). -/
def lookupClone (c : Nat) : List (Nat × Nat) → Option Nat
  | [] => none
  | q :: rest => if q.1 = c then some q.2 else lookupClone c rest

/-- Worklist loop of AutomatonBuilder::cloneCurrentGroup. Processes the
current visit (old state, predecessor in the clone): on first visit the old
state is deep-cloned (its kind is copied into a fresh state), linked after
the predecessor, its successors are pushed (unless the old state is the
group end state, whose outgoing edges are not followed) and the pair is
recorded in the visited map; on a revisit only the edge to the existing
clone is added. The C++ do/while uses pushBack and popBack on the queue, so
successors are processed last-in first-out; the successor list is read after
the clone has been linked, as in the source. The fuel argument bounds the
number of iterations; the returned flag tells whether the queue was drained
(the C++ loop simply runs until the queue is empty). -/
def cloneLoop (g : Automaton) (endSt : Nat) (visited : List (Nat × Nat))
    (currVisit : Nat × Nat) (stack : List (Nat × Nat)) :
    Nat → Automaton × List (Nat × Nat) × Nat × Bool
  | 0 => (g, visited, currVisit.2, false)
  | fuel + 1 =>
    let c := currVisit.1
    let p := currVisit.2
    match lookupClone c visited with
    | some c2 =>
      let g2 := g.addNext p c2
      match stack with
      | [] => (g2, visited, c2, true)
      | v :: rest => cloneLoop g2 endSt visited v rest fuel
    | none =>
      let c2 := g.numStates
      let g2 : Automaton := { g with kinds := g.kinds ++ [g.kindAt c] }
      let g3 := g2.addNext p c2
      let succs := if c ≠ endSt then g3.nextList c else []
      let visited2 := visited ++ [(c, c2)]
      let stack2 := (succs.map fun v => (v, c2)).reverse ++ stack
      match stack2 with
      | [] => (g3, visited2, c2, true)
      | v :: rest => cloneLoop g3 endSt visited2 v rest fuel

/-- Fuel given to the clone worklist; generous for every flow the driver can
produce. -/
def cloneFuel (g : Automaton) : Nat :=
  (g.numStates + 1) * (g.edges.length + 2) + g.numStates + g.edges.length + 2

namespace AutomatonBuilder

/-- Full result of one cloneCurrentGroup call: final graph, visited map,
final current state and the drained flag. A none group frame entry would be
a null dereference in C++; modelled as an untouched result with a false
flag. -/
def cloneRun (b : AutomatonBuilder) : Automaton × List (Nat × Nat) × Nat × Bool :=
  match b.groupStart b.currentGroup, b.groupEnd b.currentGroup with
  | some s, some e =>
    cloneLoop b.automaton e [] (s, b.currentState) [] (cloneFuel b.automaton)
  | _, _ => (b.automaton, [], b.currentState, false)

/-- AutomatonBuilder::cloneCurrentGroup: runs the worklist from the current
group start, attaching the clone after currentState; the builder's current
state ends on the clone produced by the last processed visit. -/
def cloneCurrentGroup (b : AutomatonBuilder) : AutomatonBuilder :=
  let r := b.cloneRun
  { b with automaton := r.1, currentState := r.2.2.1 }

/-- One iteration of the min-repetitions loop of pushRepeat: inserts a fresh
epsilon state after currentState (recording it as the prevState of the C++
code) and clones the current group after it. -/
def repeatBody (bp : AutomatonBuilder × Option Nat) : AutomatonBuilder × Option Nat :=
  let b0 := bp.1
  let (e, g1) := b0.automaton.pushNew .epsilon
  let g2 := g1.addNext b0.currentState e
  let b1 := cloneCurrentGroup { b0 with automaton := g2, currentState := e }
  (b1, some e)

/-- Trace of one pushRepeat call: the pointer value used as the target of
the jump circuit in the open-ended case. In C++ prevState is declared
uninitialized and only assigned inside the min-repetitions loop; none models
the indeterminate pointer read when the loop body never runs. -/
structure RepeatTrace where
  jumpTarget : Option Nat
deriving DecidableEq

/-- Result of the min-repetitions loop of pushRepeat, starting right after
the first epsilon (the future group end) has been allocated: the loop body
runs k times threading the builder and the prevState pointer (initially the
uninitialized none). -/
def repeatLoop (b : AutomatonBuilder) (k : Nat) : AutomatonBuilder × Option Nat :=
  repeatBody^[k] (({ b with automaton := (b.automaton.pushNew .epsilon).2 }
    : AutomatonBuilder), none)

/-- AutomatonBuilder::pushRepeat together with its trace. First an epsilon
state (the future group end) is created; the loop runs minRepeats - 1 times
inserting an epsilon and a clone of the current group; if maxRepeats is zero
a jump edge is added from currentState back to prevState (the epsilon
preceding the last clone; an indeterminate pointer when the loop never ran,
modelled by adding no edge and recording none); otherwise for each of the
maxRepeats - minRepeats further clones a skip edge to the first epsilon is
added before the clone; finally currentState is linked to the first epsilon,
which becomes both the current state and the current group end. -/
def pushRepeatCore (b : AutomatonBuilder) (minRepeats maxRepeats : Nat) :
    AutomatonBuilder × RepeatTrace :=
  let eps0 := b.automaton.numStates
  let loopRes := repeatLoop b (minRepeats - 1)
  let b1 := loopRes.1
  let prevState := loopRes.2
  let b2 : AutomatonBuilder :=
    if maxRepeats = 0 then
      match prevState with
      | some p => { b1 with automaton := b1.automaton.addNext b1.currentState p }
      | none => b1
    else
      (fun b => cloneCurrentGroup
        { b with automaton := b.automaton.addNext b.currentState eps0 })^[maxRepeats - minRepeats] b1
  let g4 := b2.automaton.addNext b2.currentState eps0
  ({ b2 with
      automaton := g4
      currentState := eps0
      groupEnd := fun i => if i = b2.currentGroup then some eps0 else b2.groupEnd i },
   { jumpTarget := if maxRepeats = 0 then prevState else none })

/-- AutomatonBuilder::pushRepeat, discarding the trace. -/
def pushRepeat (b : AutomatonBuilder) (minRepeats maxRepeats : Nat) : AutomatonBuilder :=
  (pushRepeatCore b minRepeats maxRepeats).1

end AutomatonBuilder

/-- Merge an epsilon state into its unique predecessor. Modelled from the
spec: rewire each successor s of the epsilon so that pred goes to s, then
delete the epsilon (all edges incident to it disappear and it is recorded as
removed). The head of the incoming-edge list is the unique predecessor under
the optimizer guard. -/
def mergePrevState (g : Automaton) (e : Nat) : Automaton :=
  match (g.edges.filter fun q => q.2 == e).head? with
  | some pe =>
    let rew := (g.edges.filter fun q => q.1 == e).map fun q => (pe.1, q.2)
    { g with
      edges := (g.edges ++ rew).filter fun q => q.1 != e && q.2 != e
      removed := g.removed ++ [e] }
  | none => g

/-- Merge an epsilon state into its unique successor. Modelled from the
spec: rewire each predecessor p of the epsilon so that p goes to the unique
successor, then delete the epsilon. -/
def mergeNextState (g : Automaton) (e : Nat) : Automaton :=
  match (g.edges.filter fun q => q.1 == e).head? with
  | some se =>
    let rew := (g.edges.filter fun q => q.2 == e).map fun q => (q.1, se.2)
    { g with
      edges := (g.edges ++ rew).filter fun q => q.1 != e && q.2 != e
      removed := g.removed ++ [e] }
  | none => g

/-- One iteration of AutomatonOptimizer::removeEpsilons for the state at the
given index: if it is an epsilon state with exactly one incoming transition
and at least one outgoing transition it is merged into the predecessor; else
if it has exactly one outgoing transition and at least one incoming
transition it is merged into the successor; otherwise it is left in place. -/
def removeEpsilonsStep (g : Automaton) (i : Nat) : Automaton :=
  if g.isEps i then
    if g.prevCount i == 1 && decide (0 < g.nextCount i) then mergePrevState g i
    else if g.nextCount i == 1 && decide (0 < g.prevCount i) then mergeNextState g i
    else g
  else g

/-- AutomatonOptimizer::removeEpsilons: iterates over the allocated states
(indices 2 and up, in allocation order; start and accept are not in the
allocated list) applying the merge step. -/
def removeEpsilons (g : Automaton) : Automaton :=
  (List.range' 2 (g.numStates - 2)).foldl removeEpsilonsStep g

/-- One step of the pattern driver of Regex::compile (regex.cpp): the open
paren begins a group, the close paren ALSO begins a group (the source treats
both cases identically), the pipe pushes a branch, the plus pushes a jump,
the dot pushes an any state, every other character pushes a symbol state.
Character codes: 40 open paren, 41 close paren, 124 pipe, 43 plus, 46 dot.
A null-frame dereference inside pushBranch or pushJump yields none. -/
def driverStep (b : AutomatonBuilder) (c : Nat) : Option AutomatonBuilder :=
  if c = 40 then some b.beginGroup
  else if c = 41 then some b.beginGroup
  else if c = 124 then b.pushBranch
  else if c = 43 then b.pushJump
  else if c = 46 then some (b.pushState .anySym)
  else some (b.pushState (.symbol c))

/-- Regex::compile up to, but not including, the optimizer pass: build a
fresh automaton, drive the builder over the pattern, then end the main
group. -/
def compileNoOpt (pattern : List Nat) : Option Automaton :=
  (pattern.foldlM driverStep (AutomatonBuilder.mk' Automaton.new)).map
    fun b => b.endGroup.automaton

/-- Regex::compile: the driver pass followed by the epsilon-removal
optimizer pass. -/
def Regex.compile (pattern : List Nat) : Option Automaton :=
  (compileNoOpt pattern).map removeEpsilons

end Re

namespace Re

/-! ### Graph extension: the builder and the clone traversal only append states -/

/-- One graph extends another when its state list is the other's with new
states appended at the end (the builder and the clone traversal never remove
or reorder states). -/
def Automaton.Extends (g g2 : Automaton) : Prop :=
  ∃ t, g2.kinds = g.kinds ++ t

/-- One epsilon move: from an epsilon state along one of its edges. -/
def epsStep (g : Automaton) (u v : Nat) : Prop :=
  g.isEps u = true ∧ (u, v) ∈ g.edges

/-- Reachability through epsilon states. -/
def EpsReach (g : Automaton) : Nat → Nat → Prop :=
  Relation.ReflTransGen (epsStep g)
/-- Successor set of a state as a finite set. -/
def succSet (g : Automaton) (u : Nat) : Finset Nat := (g.nextList u).toFinset
/-- Current state of the builder after pushing k literal symbols. -/
def curAt (k : Nat) : Nat := if k = 0 then 0 else 2 * k + 1

/-- State kinds of the automaton built from a literal pattern: start and
accept, then an epsilon and a symbol state per pattern symbol. -/
def litKinds (S : List Nat) : List StateKind :=
  [.epsilon, .epsilon] ++ S.flatMap (fun c => [.epsilon, .symbol c])

/-- Edges created by the first n literal pushState calls. -/
def litEdges (n : Nat) : List (Nat × Nat) :=
  (List.range n).flatMap (fun i => [(curAt i, 2 * i + 2), (2 * i + 2, 2 * i + 3)])

/-- Automaton state after the driver loop over a literal pattern, before the
final endGroup. -/
def litPartial (S : List Nat) : Automaton :=
  { kinds := litKinds S
    edges := litEdges S.length
    removed := []
    start := 0
    accept := 1 }

/-- Automaton produced by compileNoOpt on a literal pattern. -/
def litAuto (S : List Nat) : Automaton :=
  { kinds := litKinds S
    edges := litEdges S.length ++ [(curAt S.length, 1)]
    removed := []
    start := 0
    accept := 1 }

/-- Characters the driver treats as plain symbols. -/
def notSpecial (c : Nat) : Prop :=
  c ≠ 40 ∧ c ≠ 41 ∧ c ≠ 124 ∧ c ≠ 43 ∧ c ≠ 46

instance (c : Nat) : Decidable (notSpecial c) := by
  unfold notSpecial
  infer_instance
/-- Frontier of the literal chain after j symbols have been matched. -/
def litFrontier (S : List Nat) (j : Nat) : Finset Nat :=
  if j = S.length then {1} else if j = 0 then {0, 2, 3} else {2 * j + 2, 2 * j + 3}
/-- Reachability from a source avoiding edges out of the end state. -/
def ReachAvoid (g : Automaton) (endSt a b : Nat) : Prop :=
  Relation.ReflTransGen (fun x y => x ≠ endSt ∧ (x, y) ∈ g.edges) a b
/-- Loop invariant of the clone traversal. The parameters are the original
edge list, the original state count, the group end state and the traversal
root; the mutable state is the graph, the visited map and the pending queue
(current visit at the head). -/
def CloneInv (E0 : List (Nat × Nat)) (n0 endSt s : Nat)
    (g : Automaton) (visited : List (Nat × Nat)) (queue : List (Nat × Nat)) : Prop :=
  n0 ≤ g.numStates ∧
  (∀ q ∈ E0, q ∈ g.edges) ∧
  (visited.map Prod.fst).Nodup ∧
  (∀ p ∈ visited, n0 ≤ p.2 ∧ p.2 < g.numStates ∧ p.1 < g.numStates ∧
    g.kinds.get? p.2 = g.kinds.get? p.1) ∧
  (∀ p ∈ visited, ReachAvoid g endSt s p.1) ∧
  (∀ q ∈ queue, q.1 < g.numStates ∧ q.2 < g.numStates ∧ ReachAvoid g endSt s q.1) ∧
  (∀ p ∈ visited, p.1 ≠ endSt → ∀ v, (p.1, v) ∈ E0 →
    (∃ v2, (v, v2) ∈ visited ∧ (p.2, v2) ∈ g.edges) ∨ (v, p.2) ∈ queue) ∧
  (∀ q ∈ g.edges, q.1 < g.numStates ∧ q.2 < g.numStates)

theorem Automaton.Extends.refl (g : Automaton) : g.Extends g :=
  ⟨[], by simp⟩

theorem Automaton.Extends.trans {g1 g2 g3 : Automaton}
    (h1 : g1.Extends g2) (h2 : g2.Extends g3) : g1.Extends g3 := by
  obtain ⟨t1, ht1⟩ := h1
  obtain ⟨t2, ht2⟩ := h2
  exact ⟨t1 ++ t2, by simp [ht2, ht1]⟩

theorem Automaton.Extends.numStates_le {g g2 : Automaton} (h : g.Extends g2) :
    g.numStates ≤ g2.numStates := by
  obtain ⟨t, ht⟩ := h
  simp [Automaton.numStates, ht]

theorem Automaton.Extends.get?_eq {g g2 : Automaton} (h : g.Extends g2)
    {i : Nat} {k : StateKind} (hk : g.kinds.get? i = some k) :
    g2.kinds.get? i = some k := by
  obtain ⟨t, ht⟩ := h
  have hi : i < g.kinds.length := by
    cases Nat.lt_or_ge i g.kinds.length with
    | inl h2 => exact h2
    | inr h2 => rw [List.get?_eq_none.mpr h2] at hk; exact Option.noConfusion hk
  rw [ht, List.get?_append hi]
  exact hk

theorem Automaton.addNext_extends (g : Automaton) (u v : Nat) :
    g.Extends (g.addNext u v) := ⟨[], by simp [Automaton.addNext]⟩

theorem Automaton.push_addNext_extends (g : Automaton) (k : StateKind) (u v : Nat) :
    g.Extends (({ g with kinds := g.kinds ++ [k] } : Automaton).addNext u v) :=
  Automaton.Extends.trans ⟨[k], rfl⟩ (Automaton.addNext_extends _ _ _)

theorem cloneLoop_extends (fuel : Nat) :
    ∀ (g : Automaton) (endSt : Nat) (visited : List (Nat × Nat))
      (currVisit : Nat × Nat) (stack : List (Nat × Nat)),
      g.Extends (cloneLoop g endSt visited currVisit stack fuel).1 := by
  induction fuel with
  | zero => intro g endSt visited currVisit stack; exact Automaton.Extends.refl g
  | succ n ih =>
    intro g endSt visited currVisit stack
    rw [cloneLoop]
    cases hv : lookupClone currVisit.1 visited with
    | some c2 =>
      dsimp only
      cases stack with
      | nil => exact Automaton.addNext_extends g currVisit.2 c2
      | cons v rest =>
        exact (Automaton.addNext_extends g currVisit.2 c2).trans (ih _ _ _ _ _)
    | none =>
      dsimp only
      split
      · exact Automaton.push_addNext_extends g _ _ _
      · exact (Automaton.push_addNext_extends g _ _ _).trans (ih _ _ _ _ _)

theorem AutomatonBuilder.cloneCurrentGroup_extends (b : AutomatonBuilder) :
    b.automaton.Extends b.cloneCurrentGroup.automaton := by
  unfold AutomatonBuilder.cloneCurrentGroup AutomatonBuilder.cloneRun
  cases hs : b.groupStart b.currentGroup with
  | none => exact Automaton.Extends.refl _
  | some s =>
    cases he : b.groupEnd b.currentGroup with
    | none => exact Automaton.Extends.refl _
    | some e => exact cloneLoop_extends _ _ _ _ _ _

/-! ### Claim C10: endGroup on an empty group stack is a no-op -/

/-- Claim C10: for every builder whose group stack is empty (top frame index
0), endGroup leaves the builder and the graph completely unchanged, signals
no error, and returns the builder. -/
theorem C10_endGroup_empty_stack_noop (b : AutomatonBuilder)
    (h : b.currentGroup = 0) : b.endGroup = b := by
  unfold AutomatonBuilder.endGroup
  simp [h]

/-- Witness for C10 at a concrete builder with an empty group stack. -/
theorem C10_endGroup_empty_stack_noop_witness :
    ((AutomatonBuilder.mk' Automaton.new).endGroup.currentGroup = 0) ∧
      (AutomatonBuilder.mk' Automaton.new).endGroup.endGroup =
        (AutomatonBuilder.mk' Automaton.new).endGroup :=
  ⟨rfl, C10_endGroup_empty_stack_noop _ rfl⟩

/-! ### Claim C5: builder state immediately after construction -/

/-- Counterexample to C5 as stated: immediately after constructing a builder
on a fresh automaton, frame 1 is the null pair, not equal to frame 0. -/
theorem C5_frame_one_counterexample :
    ¬ ((AutomatonBuilder.mk' Automaton.new).groupStart 1 =
          (AutomatonBuilder.mk' Automaton.new).groupStart 0 ∧
       (AutomatonBuilder.mk' Automaton.new).groupEnd 1 =
          (AutomatonBuilder.mk' Automaton.new).groupEnd 0) := by
  decide

/-- Claim C5 (amended): after construction the current state is the graph
start state, frame 0 is (start, accept), the top frame index is 1, and every
frame above 0 (frame 1 included) holds null pointers rather than a copy of
frame 0. -/
theorem C5_builder_construction (a : Automaton) :
    (AutomatonBuilder.mk' a).currentState = a.start ∧
      (AutomatonBuilder.mk' a).groupStart 0 = some a.start ∧
      (AutomatonBuilder.mk' a).groupEnd 0 = some a.accept ∧
      (AutomatonBuilder.mk' a).currentGroup = 1 ∧
      ∀ i, 0 < i → (AutomatonBuilder.mk' a).groupStart i = none ∧
        (AutomatonBuilder.mk' a).groupEnd i = none := by
  refine ⟨rfl, rfl, rfl, rfl, fun i hi => ?_⟩
  have : i ≠ 0 := Nat.pos_iff_ne_zero.mp hi
  constructor <;> simp [AutomatonBuilder.mk', this]

/-- Witness for C5 at the freshly constructed automaton and frame index 1. -/
theorem C5_builder_construction_witness :
    (AutomatonBuilder.mk' Automaton.new).currentState = Automaton.new.start ∧
      (0 : Nat) < 1 ∧
      (AutomatonBuilder.mk' Automaton.new).groupStart 1 = none :=
  ⟨(C5_builder_construction Automaton.new).1, by decide,
    ((C5_builder_construction Automaton.new).2.2.2.2 1 (by decide)).1⟩

/-! ### Claim C7: pushState contract -/

/-- Claim C7: pushState creates a fresh epsilon state E and a fresh state S
of the requested kind, appends the edges C to E and E to S, makes S current,
and stores (E, S) as the frame at the top index g, leaving every other frame
and the group index unchanged. E and S are the next two allocation indices,
hence states created by this call. -/
theorem C7_pushState_contract (b : AutomatonBuilder) (k : StateKind) :
    (b.pushState k).automaton.kinds.get? b.automaton.numStates = some .epsilon ∧
      (b.pushState k).automaton.kinds.get? (b.automaton.numStates + 1) = some k ∧
      (b.pushState k).automaton.numStates = b.automaton.numStates + 2 ∧
      (b.pushState k).automaton.edges = b.automaton.edges ++
        [(b.currentState, b.automaton.numStates),
         (b.automaton.numStates, b.automaton.numStates + 1)] ∧
      (b.pushState k).currentState = b.automaton.numStates + 1 ∧
      (b.pushState k).groupStart = (fun i =>
        if i = b.currentGroup then some b.automaton.numStates else b.groupStart i) ∧
      (b.pushState k).groupEnd = (fun i =>
        if i = b.currentGroup then some (b.automaton.numStates + 1) else b.groupEnd i) ∧
      (b.pushState k).currentGroup = b.currentGroup := by
  have hlen : (b.automaton.kinds ++ [StateKind.epsilon]).length
      = b.automaton.kinds.length + 1 := by simp
  refine ⟨?_, ?_, ?_, ?_, ?_, ?_, ?_, rfl⟩
  · show ((b.automaton.kinds ++ [StateKind.epsilon]) ++ [k]).get? b.automaton.kinds.length = _
    rw [List.get?_append (by simp)]
    exact List.get?_concat_length _ _
  · show ((b.automaton.kinds ++ [StateKind.epsilon]) ++ [k]).get? (b.automaton.kinds.length + 1) = _
    rw [← hlen]
    exact List.get?_concat_length _ _
  · show ((b.automaton.kinds ++ [StateKind.epsilon]) ++ [k]).length = b.automaton.kinds.length + 2
    simp
  · show (b.automaton.edges ++ [(b.currentState, b.automaton.kinds.length)]) ++ _ = _
    simp [Automaton.numStates, hlen]
  · show (b.automaton.kinds ++ [StateKind.epsilon]).length = b.automaton.kinds.length + 1
    exact hlen
  · rfl
  · show (fun i => if i = b.currentGroup
        then some (b.automaton.kinds ++ [StateKind.epsilon]).length else b.groupEnd i) = _
    funext i
    by_cases hi : i = b.currentGroup <;> simp [hi, hlen, Automaton.numStates]

/-! ### Claim C4: beginGroup at full stack signals no error (code bug) -/

/-- Evidence for C4: with the group stack at its maximum (top index 126
after 125 nested beginGroup calls on a fresh builder), a further beginGroup
completes normally: it still creates the two epsilon states and moves the
current state, but silently skips the frame push and raises no error (the
C++ else branch is an empty statement marked TODO: Error). -/
theorem C4_beginGroup_capacity_no_error :
    (AutomatonBuilder.beginGroup^[125] (AutomatonBuilder.mk' Automaton.new)).currentGroup
        = 126 ∧
      ((AutomatonBuilder.beginGroup^[125]
          (AutomatonBuilder.mk' Automaton.new)).beginGroup).currentGroup = 126 ∧
      ((AutomatonBuilder.beginGroup^[125]
          (AutomatonBuilder.mk' Automaton.new)).beginGroup).automaton.numStates =
        (AutomatonBuilder.beginGroup^[125]
          (AutomatonBuilder.mk' Automaton.new)).automaton.numStates + 2 ∧
      ((AutomatonBuilder.beginGroup^[125]
          (AutomatonBuilder.mk' Automaton.new)).beginGroup).groupStart 126 = none := by
  refine ⟨by decide, by decide, by decide, by decide⟩

/-! ### Claim C1: the close paren invokes beginGroup in the source (code bug) -/

/-- Evidence for C1: the driver maps the close paren (code 41) to
beginGroup, not endGroup. Compiling the single close paren therefore creates
the two group states (four states in total instead of the two that endGroup
semantics would leave), and the compiled pattern open paren, a, close paren
rejects the single symbol a, which the specified endGroup semantics would
accept. -/
theorem C1_rparen_invokes_beginGroup :
    (compileNoOpt [41]).map Automaton.numStates = some 4 ∧
      (Regex.compile [40, 97, 41]).map (fun g => g.acceptString [97]) = some false ∧
      (∀ b : AutomatonBuilder, driverStep b 41 = some b.beginGroup) := by
  refine ⟨by decide, by decide, fun b => rfl⟩

end Re

namespace Re

/-! ### Claim C6: the open-ended jump of pushRepeat -/

theorem Automaton.pushNew_extends (g : Automaton) (k : StateKind) :
    g.Extends (g.pushNew k).2 := ⟨[k], rfl⟩

/-- Invariant of the min-repetitions loop of pushRepeat: the graph only
grows, and once the body has run at least once the recorded prevState is a
fresh epsilon state. -/
theorem repeatBody_invariant (k : Nat) (b0 : AutomatonBuilder) (p0 : Option Nat) :
    b0.automaton.Extends (AutomatonBuilder.repeatBody^[k] (b0, p0)).1.automaton ∧
      (1 ≤ k → ∃ t, (AutomatonBuilder.repeatBody^[k] (b0, p0)).2 = some t ∧
        b0.automaton.numStates ≤ t ∧
        (AutomatonBuilder.repeatBody^[k] (b0, p0)).1.automaton.kinds.get? t
          = some .epsilon) := by
  induction k with
  | zero => exact ⟨Automaton.Extends.refl _, fun h => absurd h (by decide)⟩
  | succ n ih =>
    rw [Function.iterate_succ_apply']
    obtain ⟨ihext, _⟩ := ih
    set r := AutomatonBuilder.repeatBody^[n] (b0, p0) with hr
    have hbody : AutomatonBuilder.repeatBody r =
        (AutomatonBuilder.cloneCurrentGroup
          { r.1 with
            automaton := (r.1.automaton.pushNew .epsilon).2.addNext r.1.currentState
              (r.1.automaton.pushNew .epsilon).1
            currentState := (r.1.automaton.pushNew .epsilon).1 },
         some (r.1.automaton.pushNew .epsilon).1) := rfl
    rw [hbody]
    have hfresh : (r.1.automaton.pushNew StateKind.epsilon).1 = r.1.automaton.numStates := rfl
    have hmid : r.1.automaton.Extends
        ((r.1.automaton.pushNew StateKind.epsilon).2.addNext r.1.currentState
          (r.1.automaton.pushNew StateKind.epsilon).1) :=
      (Automaton.pushNew_extends _ _).trans (Automaton.addNext_extends _ _ _)
    have hclone := AutomatonBuilder.cloneCurrentGroup_extends
      ({ r.1 with
          automaton := (r.1.automaton.pushNew .epsilon).2.addNext r.1.currentState
            (r.1.automaton.pushNew .epsilon).1
          currentState := (r.1.automaton.pushNew .epsilon).1 })
    have hget : ((r.1.automaton.pushNew StateKind.epsilon).2.addNext r.1.currentState
        (r.1.automaton.pushNew StateKind.epsilon).1).kinds.get? r.1.automaton.numStates
          = some .epsilon := by
      show (r.1.automaton.kinds ++ [StateKind.epsilon]).get? r.1.automaton.kinds.length = _
      exact List.get?_concat_length _ _
    refine ⟨ihext.trans (hmid.trans hclone), fun _ => ?_⟩
    exact ⟨r.1.automaton.numStates, rfl, ihext.numStates_le,
      hclone.get?_eq hget⟩

/-- Shape of pushRepeat(min, 0) once the loop has recorded a prevState: the
jump edge from the loop's final current state to prevState is appended,
followed by the terminating epsilon link, and the first epsilon becomes the
current state and the group end. -/
theorem pushRepeatCore_zero_eq (b : AutomatonBuilder) (minRepeats t : Nat)
    (hL : (AutomatonBuilder.repeatLoop b (minRepeats - 1)).2 = some t) :
    b.pushRepeatCore minRepeats 0 =
      ({ (AutomatonBuilder.repeatLoop b (minRepeats - 1)).1 with
          automaton := ((AutomatonBuilder.repeatLoop b (minRepeats - 1)).1.automaton.addNext
              (AutomatonBuilder.repeatLoop b (minRepeats - 1)).1.currentState t).addNext
            (AutomatonBuilder.repeatLoop b (minRepeats - 1)).1.currentState b.automaton.numStates,
          currentState := b.automaton.numStates,
          groupEnd := fun i =>
            if i = (AutomatonBuilder.repeatLoop b (minRepeats - 1)).1.currentGroup
            then some b.automaton.numStates
            else (AutomatonBuilder.repeatLoop b (minRepeats - 1)).1.groupEnd i },
       { jumpTarget := some t }) := by
  unfold AutomatonBuilder.pushRepeatCore
  dsimp only
  rw [hL]
  rfl

/-- Counterexample to C6 as stated: with min equal to 1 (allowed by the
claim) the loop body never runs, the C++ prevState pointer stays
uninitialized (modelled as none), and no jump edge to a freshly created
state is recorded. -/
theorem C6_pushRepeat_min_one_counterexample :
    ((((AutomatonBuilder.mk' Automaton.new).pushState (.symbol 97)).pushRepeatCore 1 0).2.jumpTarget
        = none) ∧ 1 ≤ (1 : Nat) := by
  exact ⟨by decide, by decide⟩

/-- Claim C6 (amended): for every call pushRepeat(min, 0) with min at least
2, the jump target recorded for the open-ended repetition is a state
created during this call: a fresh epsilon state (the one inserted before
the last clone), and the jump edge into it is present in the resulting
graph. -/
theorem C6_pushRepeat_open_jump (b : AutomatonBuilder) (minRepeats : Nat)
    (h : 2 ≤ minRepeats) :
    ∃ t, ((b.pushRepeatCore minRepeats 0).2.jumpTarget = some t) ∧
      (b.automaton.numStates ≤ t) ∧
      ((b.pushRepeatCore minRepeats 0).1.automaton.kinds.get? t = some StateKind.epsilon) ∧
      ∃ u, (u, t) ∈ (b.pushRepeatCore minRepeats 0).1.automaton.edges := by
  have h1 : 1 ≤ minRepeats - 1 := by omega
  obtain ⟨hext, hinv⟩ := repeatBody_invariant (minRepeats - 1)
    ({ b with automaton := (b.automaton.pushNew .epsilon).2 }) none
  obtain ⟨t, ht, hle, hget⟩ := hinv h1
  have ht2 : (AutomatonBuilder.repeatLoop b (minRepeats - 1)).2 = some t := ht
  rw [pushRepeatCore_zero_eq b minRepeats t ht2]
  refine ⟨t, rfl, ?_, ?_, ?_⟩
  · exact le_trans (Automaton.pushNew_extends b.automaton .epsilon).numStates_le hle
  · exact hget
  · refine ⟨(AutomatonBuilder.repeatLoop b (minRepeats - 1)).1.currentState, ?_⟩
    simp [Automaton.addNext]

/-- Witness for C6 at a concrete builder and min = 3. -/
theorem C6_pushRepeat_open_jump_witness :
    2 ≤ 3 ∧
      ∃ t, ((((AutomatonBuilder.mk' Automaton.new).pushState (.symbol 97)).pushRepeatCore 3 0).2.jumpTarget
          = some t) ∧
        (((AutomatonBuilder.mk' Automaton.new).pushState (.symbol 97)).automaton.numStates ≤ t) ∧
        (((((AutomatonBuilder.mk' Automaton.new).pushState (.symbol 97)).pushRepeatCore 3 0).1.automaton.kinds.get? t)
          = some StateKind.epsilon) ∧
        ∃ u, (u, t) ∈ ((((AutomatonBuilder.mk' Automaton.new).pushState (.symbol 97)).pushRepeatCore 3 0).1.automaton.edges) :=
  ⟨by decide, C6_pushRepeat_open_jump
      ((AutomatonBuilder.mk' Automaton.new).pushState (.symbol 97)) 3 (by decide)⟩

end Re

namespace Re

/-! ### Claim C9: start and accept states survive the optimizer -/

theorem mergePrevState_kinds (g : Automaton) (e : Nat) :
    (mergePrevState g e).kinds = g.kinds := by
  unfold mergePrevState
  split <;> rfl

theorem mergeNextState_kinds (g : Automaton) (e : Nat) :
    (mergeNextState g e).kinds = g.kinds := by
  unfold mergeNextState
  split <;> rfl

theorem removeEpsilonsStep_kinds (g : Automaton) (i : Nat) :
    (removeEpsilonsStep g i).kinds = g.kinds := by
  unfold removeEpsilonsStep
  split
  · split
    · exact mergePrevState_kinds g i
    · split
      · exact mergeNextState_kinds g i
      · rfl
  · rfl

theorem mergePrevState_removed (g : Automaton) (e : Nat) :
    ∀ x ∈ (mergePrevState g e).removed, x ∈ g.removed ∨ x = e := by
  unfold mergePrevState
  split
  · intro x hx
    simp at hx
    exact hx
  · intro x hx
    exact Or.inl hx

theorem mergeNextState_removed (g : Automaton) (e : Nat) :
    ∀ x ∈ (mergeNextState g e).removed, x ∈ g.removed ∨ x = e := by
  unfold mergeNextState
  split
  · intro x hx
    simp at hx
    exact hx
  · intro x hx
    exact Or.inl hx

theorem removeEpsilonsStep_removed (g : Automaton) (i : Nat) :
    ∀ x ∈ (removeEpsilonsStep g i).removed, x ∈ g.removed ∨ x = i := by
  unfold removeEpsilonsStep
  split
  · split
    · exact mergePrevState_removed g i
    · split
      · exact mergeNextState_removed g i
      · intro x hx; exact Or.inl hx
  · intro x hx; exact Or.inl hx

theorem foldl_removeEpsilonsStep_spec (l : List Nat) :
    ∀ g : Automaton, ((l.foldl removeEpsilonsStep g).kinds = g.kinds) ∧
      ∀ x ∈ (l.foldl removeEpsilonsStep g).removed, x ∈ g.removed ∨ x ∈ l := by
  induction l with
  | nil => intro g; exact ⟨rfl, fun x hx => Or.inl hx⟩
  | cons i rest ih =>
    intro g
    obtain ⟨ihk, ihr⟩ := ih (removeEpsilonsStep g i)
    refine ⟨by rw [List.foldl_cons, ihk, removeEpsilonsStep_kinds], ?_⟩
    intro x hx
    rw [List.foldl_cons] at hx
    cases ihr x hx with
    | inl h2 =>
      cases removeEpsilonsStep_removed g i x h2 with
      | inl h3 => exact Or.inl h3
      | inr h3 => exact Or.inr (by simp [h3])
    | inr h2 => exact Or.inr (by simp [h2])

/-- Claim C9: on construction the start state (index 0) and the accepted
state (index 1) are epsilon states and nothing is removed; and for every
automaton whose start and accept are those constructor indices, the
epsilon-removal pass keeps the whole state list intact (states are only
logically unlinked, never deallocated) and never records the start or the
accepted state as removed, since it only iterates over the allocated list
(indices 2 and up). -/
theorem C9_start_accept_survive_optimizer :
    (Automaton.new.kinds.get? Automaton.new.start = some StateKind.epsilon ∧
      Automaton.new.kinds.get? Automaton.new.accept = some StateKind.epsilon ∧
      Automaton.new.removed = []) ∧
    ∀ g : Automaton, g.start = 0 → g.accept = 1 →
      ((removeEpsilons g).kinds = g.kinds ∧
        (g.start ∉ g.removed → g.start ∉ (removeEpsilons g).removed) ∧
        (g.accept ∉ g.removed → g.accept ∉ (removeEpsilons g).removed)) := by
  refine ⟨⟨rfl, rfl, rfl⟩, fun g hs ha => ?_⟩
  obtain ⟨hk, hr⟩ := foldl_removeEpsilonsStep_spec (List.range' 2 (g.numStates - 2)) g
  refine ⟨hk, fun h0 hmem => ?_, fun h1 hmem => ?_⟩
  · cases hr g.start hmem with
    | inl h2 => exact h0 h2
    | inr h2 =>
      rw [hs] at h2
      have := (List.mem_range'_1.mp h2).1
      omega
  · cases hr g.accept hmem with
    | inl h2 => exact h1 h2
    | inr h2 =>
      rw [ha] at h2
      have := (List.mem_range'_1.mp h2).1
      omega

/-- Witness for C9 at the freshly constructed automaton. -/
theorem C9_start_accept_survive_optimizer_witness :
    Automaton.new.start = 0 ∧ Automaton.new.accept = 1 ∧
      (removeEpsilons Automaton.new).kinds = Automaton.new.kinds ∧
      Automaton.new.start ∉ (removeEpsilons Automaton.new).removed :=
  ⟨rfl, rfl, (C9_start_accept_survive_optimizer.2 Automaton.new rfl rfl).1,
    (C9_start_accept_survive_optimizer.2 Automaton.new rfl rfl).2.1 (by decide)⟩

end Re

namespace Re

/-! ### Epsilon closure: reachability characterization -/


theorem mem_ecloseStep {g : Automaton} {X : Finset Nat} {v : Nat} :
    v ∈ ecloseStep g X ↔ v ∈ X ∨ ∃ u, u ∈ X ∧ g.isEps u = true ∧ (u, v) ∈ g.edges := by
  unfold ecloseStep
  simp only [Finset.mem_union, List.mem_toFinset, List.mem_filterMap]
  constructor
  · rintro (h | ⟨q, hq, hv⟩)
    · exact Or.inl h
    · by_cases hc : q.1 ∈ X ∧ g.isEps q.1
      · rw [if_pos hc] at hv
        cases hv
        exact Or.inr ⟨q.1, hc.1, hc.2, by simpa using hq⟩
      · rw [if_neg hc] at hv
        exact absurd hv (by simp)
  · rintro (h | ⟨u, hu, he, hq⟩)
    · exact Or.inl h
    · exact Or.inr ⟨(u, v), hq, by rw [if_pos ⟨hu, he⟩]⟩

theorem mem_consumeSet {g : Automaton} {F : Finset Nat} {c v : Nat} :
    v ∈ consumeSet g F c ↔ ∃ u, u ∈ F ∧ consumes g u c = true ∧ (u, v) ∈ g.edges := by
  unfold consumeSet
  simp only [List.mem_toFinset, List.mem_filterMap]
  constructor
  · rintro ⟨q, hq, hv⟩
    by_cases hc : q.1 ∈ F ∧ consumes g q.1 c
    · rw [if_pos hc] at hv
      cases hv
      exact ⟨q.1, hc.1, hc.2, by simpa using hq⟩
    · rw [if_neg hc] at hv
      exact absurd hv (by simp)
  · rintro ⟨u, hu, hc, hq⟩
    exact ⟨(u, v), hq, by rw [if_pos ⟨hu, hc⟩]⟩

theorem subset_ecloseStep (g : Automaton) (X : Finset Nat) : X ⊆ ecloseStep g X :=
  Finset.subset_union_left

theorem iterate_ecloseStep_subset (g : Automaton) (F : Finset Nat) (k : Nat) :
    (ecloseStep g)^[k] F ⊆ F ∪ (g.edges.map Prod.snd).toFinset := by
  induction k with
  | zero => simp
  | succ n ih =>
    rw [Function.iterate_succ_apply']
    intro v hv
    rcases mem_ecloseStep.mp hv with h | ⟨u, _, _, hq⟩
    · exact ih h
    · refine Finset.mem_union_right _ ?_
      simp only [List.mem_toFinset, List.mem_map]
      exact ⟨(u, v), hq, rfl⟩

theorem exists_ecloseStep_fixpoint (g : Automaton) (F : Finset Nat) :
    ∃ k ≤ g.edges.length, (ecloseStep g)^[k] F = (ecloseStep g)^[k + 1] F := by
  by_contra hcon
  push_neg at hcon
  have hchain : ∀ k ≤ g.edges.length + 1, F.card + k ≤ ((ecloseStep g)^[k] F).card := by
    intro k
    induction k with
    | zero => simp
    | succ n ih =>
      intro hn
      have hne := hcon n (by omega)
      rw [Function.iterate_succ_apply'] at hne
      have hsub : (ecloseStep g)^[n] F ⊂ (ecloseStep g)^[n + 1] F := by
        rw [Function.iterate_succ_apply']
        exact ssubset_of_subset_of_ne (subset_ecloseStep g _) hne
      have := Finset.card_lt_card hsub
      have := ih (by omega)
      omega
  have hbig := hchain (g.edges.length + 1) (le_refl _)
  have hsmall : ((ecloseStep g)^[g.edges.length + 1] F).card ≤
      F.card + g.edges.length := by
    calc ((ecloseStep g)^[g.edges.length + 1] F).card
        ≤ (F ∪ (g.edges.map Prod.snd).toFinset).card :=
          Finset.card_le_card (iterate_ecloseStep_subset g F _)
      _ ≤ F.card + (g.edges.map Prod.snd).toFinset.card := Finset.card_union_le _ _
      _ ≤ F.card + (g.edges.map Prod.snd).length :=
          Nat.add_le_add_left (g.edges.map Prod.snd).toFinset_card_le _
      _ = F.card + g.edges.length := by rw [List.length_map]
  omega

theorem iterate_ecloseStep_stab (g : Automaton) (F : Finset Nat) (k : Nat)
    (h : (ecloseStep g)^[k] F = (ecloseStep g)^[k + 1] F) :
    ∀ m, k ≤ m → (ecloseStep g)^[m] F = (ecloseStep g)^[k] F := by
  intro m hm
  induction m, hm using Nat.le_induction with
  | base => rfl
  | succ n hn ih =>
    rw [Function.iterate_succ_apply', ih]
    exact (Function.iterate_succ_apply' (ecloseStep g) k F).symm.trans h.symm

theorem ecloseStep_eclose (g : Automaton) (F : Finset Nat) :
    ecloseStep g (eclose g F) = eclose g F := by
  obtain ⟨k, hk, hfix⟩ := exists_ecloseStep_fixpoint g F
  unfold eclose
  have h1 := iterate_ecloseStep_stab g F k hfix (g.edges.length + 1) (by omega)
  rw [h1]
  exact (Function.iterate_succ_apply' (ecloseStep g) k F).symm.trans hfix.symm

theorem subset_iterate_ecloseStep (g : Automaton) (F : Finset Nat) :
    ∀ k, F ⊆ (ecloseStep g)^[k] F := by
  intro k
  induction k with
  | zero => simp
  | succ n ih =>
    rw [Function.iterate_succ_apply']
    exact ih.trans (subset_ecloseStep g _)

theorem subset_eclose (g : Automaton) (F : Finset Nat) : F ⊆ eclose g F :=
  subset_iterate_ecloseStep g F _

/-- Membership in the computed closure coincides with reachability through
epsilon states from the frontier. -/
theorem mem_eclose {g : Automaton} {F : Finset Nat} {v : Nat} :
    v ∈ eclose g F ↔ ∃ u ∈ F, EpsReach g u v := by
  constructor
  · unfold eclose
    generalize g.edges.length + 1 = k
    induction k generalizing v with
    | zero => intro hv; exact ⟨v, by simpa using hv, Relation.ReflTransGen.refl⟩
    | succ n ih =>
      rw [Function.iterate_succ_apply']
      intro hv
      rcases mem_ecloseStep.mp hv with h | ⟨u, hu, he, hq⟩
      · exact ih h
      · obtain ⟨w, hw, hr⟩ := ih hu
        exact ⟨w, hw, hr.tail ⟨he, hq⟩⟩
  · rintro ⟨u, hu, hr⟩
    induction hr with
    | refl => exact subset_eclose g F hu
    | tail _ hstep ih =>
      rw [← ecloseStep_eclose g F]
      exact mem_ecloseStep.mpr (Or.inr ⟨_, ih, hstep.1, hstep.2⟩)

theorem eclose_empty (g : Automaton) : eclose g ∅ = ∅ := by
  ext v
  simp [mem_eclose]

theorem consumeSet_empty (g : Automaton) (c : Nat) : consumeSet g ∅ c = ∅ := by
  ext v
  simp [mem_consumeSet]

theorem acceptsFrom_empty (g : Automaton) (I : List Nat) :
    acceptsFrom g ∅ I = false := by
  cases I with
  | nil => simp [acceptsFrom]
  | cons c rest => simp [acceptsFrom, consumeSet_empty, eclose_empty]

end Re

namespace Re


section MergeA

variable (g : Automaton) (E : Nat) (pE : Nat × Nat)

/-- Edge characterization of the merged graph in the predecessor case. -/
theorem mergePrev_edges (hP : g.edges.filter (fun q => q.2 == E) = [pE])
    (a b : Nat) :
    ((a, b) ∈ (mergePrevState g E).edges ↔
      (a ≠ E ∧ b ≠ E) ∧ ((a, b) ∈ g.edges ∨ (a = pE.1 ∧ (E, b) ∈ g.edges))) := by
  unfold mergePrevState
  rw [hP]
  simp only [List.head?_cons, List.mem_filter, List.mem_append, List.mem_map,
    List.mem_filter, Bool.and_eq_true, bne_iff_ne, ne_eq, beq_iff_eq]
  constructor
  · rintro ⟨hmem, hne1, hne2⟩
    refine ⟨⟨hne1, hne2⟩, ?_⟩
    rcases hmem with h | ⟨⟨q1, q2⟩, ⟨hq, hq1⟩, heq⟩
    · exact Or.inl h
    · cases heq
      subst hq1
      exact Or.inr ⟨rfl, hq⟩
  · rintro ⟨⟨hne1, hne2⟩, h | ⟨hap, hEb⟩⟩
    · exact ⟨Or.inl h, hne1, hne2⟩
    · exact ⟨Or.inr ⟨(E, b), ⟨hEb, rfl⟩, by rw [hap]⟩, hne1, hne2⟩

theorem mergePrev_start : (mergePrevState g E).start = g.start := by
  unfold mergePrevState; split <;> rfl

theorem mergePrev_accept : (mergePrevState g E).accept = g.accept := by
  unfold mergePrevState; split <;> rfl

theorem mergePrev_isEps (u : Nat) :
    (mergePrevState g E).isEps u = g.isEps u := by
  unfold Automaton.isEps
  rw [mergePrevState_kinds]

theorem mergePrev_consumes (u c : Nat) :
    consumes (mergePrevState g E) u c = consumes g u c := by
  unfold consumes
  rw [mergePrevState_kinds]

/-- In-edge uniqueness from the single-predecessor hypothesis. -/
theorem uniq_pred (hP : g.edges.filter (fun q => q.2 == E) = [pE])
    (x : Nat) (hx : (x, E) ∈ g.edges) : x = pE.1 := by
  have : (x, E) ∈ g.edges.filter (fun q => q.2 == E) :=
    List.mem_filter.mpr ⟨hx, by simp⟩
  rw [hP] at this
  simp at this
  exact congrArg Prod.fst this

theorem pE_mem (hP : g.edges.filter (fun q => q.2 == E) = [pE]) :
    pE ∈ g.edges ∧ pE.2 = E := by
  have : pE ∈ g.edges.filter (fun q => q.2 == E) := by rw [hP]; simp
  have h2 := List.mem_filter.mp this
  exact ⟨h2.1, by simpa using h2.2⟩

/-- Forward reach transfer: a path of the merged graph is a path of the
original graph (sources never being the merged state). -/
theorem mergePrev_reach_fwd (hP : g.edges.filter (fun q => q.2 == E) = [pE])
    (hEps : g.isEps E = true)
    (u v : Nat) (hr : EpsReach (mergePrevState g E) u v) :
    EpsReach g u v := by
  induction hr with
  | refl => exact Relation.ReflTransGen.refl
  | tail _ hstep ih =>
    obtain ⟨heps, hedge⟩ := hstep
    rw [mergePrev_isEps] at heps
    rcases (mergePrev_edges g E pE hP _ _).mp hedge with ⟨⟨hne1, hne2⟩, hold | ⟨hap, hEb⟩⟩
    · exact ih.tail ⟨heps, hold⟩
    · subst hap
      have hpe := pE_mem g E pE hP
      have : (pE.1, E) ∈ g.edges := by
        have := hpe.1
        rwa [show pE = (pE.1, E) from Prod.ext rfl hpe.2] at this
      exact (ih.tail ⟨heps, this⟩).tail ⟨hEps, hEb⟩

/-- Endpoints of merged-graph paths never equal the merged state. -/
theorem mergePrev_reach_ne (hP : g.edges.filter (fun q => q.2 == E) = [pE])
    (u v : Nat) (hu : u ≠ E)
    (hr : EpsReach (mergePrevState g E) u v) : v ≠ E := by
  induction hr with
  | refl => exact hu
  | tail _ hstep _ =>
    obtain ⟨_, hedge⟩ := hstep
    exact ((mergePrev_edges g E pE hP _ _).mp hedge).1.2




theorem mem_succSet {g : Automaton} {u v : Nat} :
    v ∈ succSet g u ↔ (u, v) ∈ g.edges := by
  unfold succSet Automaton.nextList
  simp only [List.mem_toFinset, List.mem_map, List.mem_filter, beq_iff_eq]
  constructor
  · rintro ⟨⟨q1, q2⟩, ⟨hq, hq1⟩, hq2⟩
    cases hq1; cases hq2; exact hq
  · intro h
    exact ⟨(u, v), ⟨h, rfl⟩, rfl⟩

theorem consumes_eps_false {g : Automaton} {u : Nat} (h : g.isEps u = true) (c : Nat) :
    consumes g u c = false := by
  unfold Automaton.isEps at h
  unfold consumes
  rw [beq_iff_eq] at h
  rw [h]
  rfl



/-- Backward reach transfer with the strengthened invariant: an original
path from a non-merged source either transfers directly or, if it currently
sits on the merged epsilon state, the merged graph has reached the unique
predecessor instead. -/
theorem mergePrev_reach_bwd (hP : g.edges.filter (fun q => q.2 == E) = [pE])
    (u v : Nat) (hu : u ≠ E) (hr : EpsReach g u v) :
    (v ≠ E → EpsReach (mergePrevState g E) u v) ∧
      (v = E → EpsReach (mergePrevState g E) u pE.1 ∧ g.isEps pE.1 = true ∧ pE.1 ≠ E) := by
  induction hr with
  | refl => exact ⟨fun _ => Relation.ReflTransGen.refl, fun hv => absurd hv hu⟩
  | tail hr' hstep ih =>
    obtain ⟨hepsb, hedge⟩ := hstep
    rename_i b c
    by_cases hb : b = E
    · obtain ⟨hrp, hepsp, hpne⟩ := ih.2 hb
      by_cases hc : c = E
      · exact ⟨fun h => absurd hc h, fun _ => ⟨hrp, hepsp, hpne⟩⟩
      · refine ⟨fun _ => ?_, fun h => absurd h hc⟩
        refine hrp.tail ⟨?_, ?_⟩
        · rw [mergePrev_isEps]; exact hepsp
        · exact (mergePrev_edges g E pE hP _ _).mpr ⟨⟨hpne, hc⟩, Or.inr ⟨rfl, hb ▸ hedge⟩⟩
    · have hrb := ih.1 hb
      by_cases hc : c = E
      · have hbp : b = pE.1 := uniq_pred g E pE hP b (hc ▸ hedge)
        exact ⟨fun h => absurd hc h,
          fun _ => ⟨hbp ▸ hrb, hbp ▸ hepsb, hbp ▸ hb⟩⟩
      · refine ⟨fun _ => ?_, fun h => absurd h hc⟩
        refine hrb.tail ⟨?_, ?_⟩
        · rw [mergePrev_isEps]; exact hepsb
        · exact (mergePrev_edges g E pE hP _ _).mpr ⟨⟨hb, hc⟩, Or.inl hedge⟩

/-- Closure correspondence for the predecessor merge: closing the rewired
frontier in the merged graph is closing in the original graph and dropping
the merged state. -/
theorem mergePrev_eclose_key (hP : g.edges.filter (fun q => q.2 == E) = [pE])
    (hEps : g.isEps E = true) (T : Finset Nat)
    (hpne_if : E ∈ T → pE.1 ≠ E) :
    eclose (mergePrevState g E)
        ((T.erase E) ∪ (if E ∈ T then succSet g E else ∅)) =
      (eclose g T).erase E := by
  ext v
  rw [mem_eclose, Finset.mem_erase, mem_eclose]
  constructor
  · rintro ⟨u, hu, hr⟩
    rcases Finset.mem_union.mp hu with h | h
    · obtain ⟨hune, huT⟩ := Finset.mem_erase.mp h
      exact ⟨mergePrev_reach_ne g E pE hP u v hune hr,
        u, huT, mergePrev_reach_fwd g E pE hP hEps u v hr⟩
    · by_cases hET : E ∈ T
      · rw [if_pos hET] at h
        have hpne := hpne_if hET
        have hEu : (E, u) ∈ g.edges := mem_succSet.mp h
        have hune : u ≠ E := by
          intro hcon
          exact hpne (uniq_pred g E pE hP E (hcon ▸ hEu)).symm
        refine ⟨mergePrev_reach_ne g E pE hP u v hune hr, E, hET, ?_⟩
        exact Relation.ReflTransGen.head ⟨hEps, hEu⟩
          (mergePrev_reach_fwd g E pE hP hEps u v hr)
      · rw [if_neg hET] at h
        exact absurd h (Finset.not_mem_empty u)
  · rintro ⟨hvne, u, huT, hr⟩
    by_cases hu : u = E
    · have hET : E ∈ T := hu ▸ huT
      have hpne := hpne_if hET
      have hrE : EpsReach g E v := hu ▸ hr
      rcases Relation.ReflTransGen.cases_head hrE with h | ⟨w, hstep, hrw⟩
      · exact absurd h.symm hvne
      · obtain ⟨_, hEw⟩ := hstep
        have hwne : w ≠ E := by
          intro hcon
          exact hpne (uniq_pred g E pE hP E (hcon ▸ hEw)).symm
        refine ⟨w, Finset.mem_union_right _ ?_, ?_⟩
        · rw [if_pos hET]
          exact mem_succSet.mpr hEw
        · exact (mergePrev_reach_bwd g E pE hP w v hwne hrw).1 hvne
    · refine ⟨u, Finset.mem_union_left _ (Finset.mem_erase.mpr ⟨hu, huT⟩), ?_⟩
      exact (mergePrev_reach_bwd g E pE hP u v hu hr).1 hvne

end MergeA



section MergeA2

variable (g : Automaton) (E : Nat) (pE : Nat × Nat)

/-- Consume correspondence for the predecessor merge. -/
theorem mergePrev_consume (hP : g.edges.filter (fun q => q.2 == E) = [pE])
    (hEps : g.isEps E = true) (F : Finset Nat) (c : Nat) :
    consumeSet (mergePrevState g E) (F.erase E) c =
      (((consumeSet g F c).erase E) ∪
        (if E ∈ consumeSet g F c then succSet g E else ∅)) := by
  ext v
  rw [mem_consumeSet, Finset.mem_union, Finset.mem_erase, mem_consumeSet]
  constructor
  · rintro ⟨u, hu, hcons, hedge⟩
    obtain ⟨hune, huF⟩ := Finset.mem_erase.mp hu
    rw [mergePrev_consumes] at hcons
    rcases (mergePrev_edges g E pE hP _ _).mp hedge with ⟨⟨_, hvne⟩, hold | ⟨hup, hEv⟩⟩
    · exact Or.inl ⟨hvne, u, huF, hcons, hold⟩
    · have hpEmem : (pE.1, E) ∈ g.edges := by
        have hpe := pE_mem g E pE hP
        have := hpe.1
        rwa [show pE = (pE.1, E) from Prod.ext rfl hpe.2] at this
      have hEcons : E ∈ consumeSet g F c :=
        mem_consumeSet.mpr ⟨u, huF, hcons, hup ▸ hpEmem⟩
      refine Or.inr ?_
      rw [if_pos hEcons]
      exact mem_succSet.mpr hEv
  · rintro (⟨hvne, u, huF, hcons, hedge⟩ | h)
    · have hune : u ≠ E := by
        intro hcon
        rw [hcon, consumes_eps_false hEps] at hcons
        exact Bool.false_ne_true hcons
      refine ⟨u, Finset.mem_erase.mpr ⟨hune, huF⟩, ?_, ?_⟩
      · rw [mergePrev_consumes]; exact hcons
      · exact (mergePrev_edges g E pE hP _ _).mpr ⟨⟨hune, hvne⟩, Or.inl hedge⟩
    · by_cases hET : E ∈ consumeSet g F c
      · rw [if_pos hET] at h
        have hEv : (E, v) ∈ g.edges := mem_succSet.mp h
        obtain ⟨u, huF, hcons, huE⟩ := mem_consumeSet.mp hET
        have hup : u = pE.1 := uniq_pred g E pE hP u huE
        have hpne : pE.1 ≠ E := by
          intro hcon
          rw [hup, hcon, consumes_eps_false hEps] at hcons
          exact Bool.false_ne_true hcons
        have hvne : v ≠ E := by
          intro hcon
          exact hpne (uniq_pred g E pE hP E (hcon ▸ hEv)).symm
        refine ⟨pE.1, Finset.mem_erase.mpr ⟨hpne, hup ▸ huF⟩, ?_, ?_⟩
        · rw [mergePrev_consumes, ← hup]; exact hcons
        · exact (mergePrev_edges g E pE hP _ _).mpr ⟨⟨hpne, hvne⟩, Or.inr ⟨rfl, hEv⟩⟩
      · rw [if_neg hET] at h
        exact absurd h (Finset.not_mem_empty v)

/-- With a single predecessor of the consumed frontier, the hpne side
condition of the closure key holds for consume sets. -/
theorem mergePrev_hpne_consume (hP : g.edges.filter (fun q => q.2 == E) = [pE])
    (hEps : g.isEps E = true) (F : Finset Nat) (c : Nat)
    (hET : E ∈ consumeSet g F c) : pE.1 ≠ E := by
  obtain ⟨u, _, hcons, huE⟩ := mem_consumeSet.mp hET
  have hup : u = pE.1 := uniq_pred g E pE hP u huE
  intro hcon
  rw [hup, hcon, consumes_eps_false hEps] at hcons
  exact Bool.false_ne_true hcons

/-- No entry into the merged state when its only in-edge is a self loop. -/
theorem reach_ne_of_selfpred (hall : ∀ x, (x, E) ∈ g.edges → x = E)
    (u v : Nat) (hu : u ≠ E) (hr : EpsReach g u v) : v ≠ E := by
  induction hr with
  | refl => exact hu
  | tail _ hstep ih =>
    obtain ⟨_, hedge⟩ := hstep
    intro hcon
    exact ih (hall _ (hcon ▸ hedge))

/-- In the predecessor-merge case, the closure of a consume set is never
the singleton of the merged state: erasing it empties the closure only if
the closure was already empty. -/
theorem mergePrev_erase_empty_iff (hP : g.edges.filter (fun q => q.2 == E) = [pE])
    (hEps : g.isEps E = true) (hNE : 0 < g.nextCount E) (F : Finset Nat) (c : Nat) :
    ((eclose g (consumeSet g F c)).erase E = ∅ ↔
      eclose g (consumeSet g F c) = ∅) := by
  constructor
  · intro h
    by_contra hne
    obtain ⟨x, hx⟩ := Finset.nonempty_iff_ne_empty.mpr hne
    have hxE : x = E := by
      by_contra hxe
      exact Finset.not_mem_empty x (h ▸ Finset.mem_erase.mpr ⟨hxe, hx⟩)
    rw [hxE] at hx
    by_cases hpne : pE.1 = E
    · have hall : ∀ y, (y, E) ∈ g.edges → y = E := by
        intro y hy
        rw [uniq_pred g E pE hP y hy, hpne]
      have hEnotT : E ∉ consumeSet g F c := by
        intro hET
        exact Bool.false_ne_true
          ((mergePrev_hpne_consume g E pE hP hEps F c hET) hpne |>.elim)
      obtain ⟨u, huT, hr⟩ := mem_eclose.mp hx
      have hune : u ≠ E := fun hcon => hEnotT (hcon ▸ huT)
      exact reach_ne_of_selfpred g E hall u E hune hr rfl
    · obtain ⟨q, hq⟩ := List.exists_mem_of_length_pos hNE
      have hq2 := List.mem_filter.mp hq
      have hq1 : q.1 = E := by simpa using hq2.2
      have hEs : (E, q.2) ∈ g.edges := by
        have := hq2.1
        rwa [show q = (E, q.2) from Prod.ext hq1 rfl] at this
      have hsne : q.2 ≠ E := by
        intro hcon
        exact hpne (uniq_pred g E pE hP E (hcon ▸ hEs)).symm
      have hs : q.2 ∈ eclose g (consumeSet g F c) := by
        rw [← ecloseStep_eclose]
        exact mem_ecloseStep.mpr (Or.inr ⟨E, hx, hEps, hEs⟩)
      exact Finset.not_mem_empty q.2 (h ▸ Finset.mem_erase.mpr ⟨hsne, hs⟩)
  · intro h
    rw [h]
    rfl

end MergeA2



/-- Dead-end frontier: the singleton of a non-accept epsilon state rejects
every input. -/
theorem acceptsFrom_eps_singleton (g : Automaton) (E : Nat)
    (hEps : g.isEps E = true) (hacc : g.accept ≠ E) (I : List Nat) :
    acceptsFrom g {E} I = false := by
  cases I with
  | nil =>
    simp only [acceptsFrom, decide_eq_false_iff_not, Finset.mem_singleton]
    exact hacc
  | cons c rest =>
    have hT : consumeSet g {E} c = ∅ := by
      ext v
      simp only [mem_consumeSet, Finset.mem_singleton, Finset.not_mem_empty, iff_false]
      rintro ⟨u, rfl, hcons, _⟩
      rw [consumes_eps_false hEps] at hcons
      exact Bool.false_ne_true hcons
    simp [acceptsFrom, hT, eclose_empty]

section MergeA3

variable (g : Automaton) (E : Nat) (pE : Nat × Nat)

/-- Executor correspondence for the predecessor merge, frontier-wise. -/
theorem mergePrev_acceptsFrom (hP : g.edges.filter (fun q => q.2 == E) = [pE])
    (hEps : g.isEps E = true) (hNE : 0 < g.nextCount E) (hacc : g.accept ≠ E)
    (I : List Nat) :
    ∀ F : Finset Nat,
      acceptsFrom (mergePrevState g E) (F.erase E) I = acceptsFrom g F I := by
  induction I with
  | nil =>
    intro F
    simp only [acceptsFrom, mergePrev_accept]
    congr 1
    simp only [eq_iff_iff, Finset.mem_erase, and_iff_right_iff_imp]
    intro _
    exact hacc
  | cons c rest ih =>
    intro F
    have h1 : consumeSet (mergePrevState g E) (F.erase E) c =
        (((consumeSet g F c).erase E) ∪
          (if E ∈ consumeSet g F c then succSet g E else ∅)) :=
      mergePrev_consume g E pE hP hEps F c
    have h2 : eclose (mergePrevState g E) (consumeSet (mergePrevState g E) (F.erase E) c) =
        (eclose g (consumeSet g F c)).erase E := by
      rw [h1]
      exact mergePrev_eclose_key g E pE hP hEps (consumeSet g F c)
        (mergePrev_hpne_consume g E pE hP hEps F c)
    show (if eclose (mergePrevState g E) (consumeSet (mergePrevState g E) (F.erase E) c) = ∅
        then false
        else acceptsFrom (mergePrevState g E)
          (eclose (mergePrevState g E) (consumeSet (mergePrevState g E) (F.erase E) c)) rest) =
      (if eclose g (consumeSet g F c) = ∅ then false
        else acceptsFrom g (eclose g (consumeSet g F c)) rest)
    rw [h2]
    by_cases h : eclose g (consumeSet g F c) = ∅
    · rw [if_pos ((mergePrev_erase_empty_iff g E pE hP hEps hNE F c).mpr h), if_pos h]
    · rw [if_neg (fun hcon => h ((mergePrev_erase_empty_iff g E pE hP hEps hNE F c).mp hcon)),
        if_neg h]
      exact ih (eclose g (consumeSet g F c))

/-- Language preservation of the predecessor merge. -/
theorem mergePrevState_preserves (hP : g.edges.filter (fun q => q.2 == E) = [pE])
    (hEps : g.isEps E = true) (hNE : 0 < g.nextCount E)
    (hstart : g.start ≠ E) (hacc : g.accept ≠ E) (I : List Nat) :
    (mergePrevState g E).acceptString I = g.acceptString I := by
  unfold Automaton.acceptString
  have hstart2 : ({g.start} : Finset Nat) = ({g.start} : Finset Nat).erase E ∪
      (if E ∈ ({g.start} : Finset Nat) then succSet g E else ∅) := by
    rw [Finset.erase_eq_of_not_mem (by simp [Ne.symm hstart]),
      if_neg (by simp [Ne.symm hstart]), Finset.union_empty]
  have hkey := mergePrev_eclose_key g E pE hP hEps {g.start}
    (fun h => absurd (Finset.mem_singleton.mp h).symm hstart)
  rw [mergePrev_start]
  conv_lhs => rw [hstart2, hkey]
  exact mergePrev_acceptsFrom g E pE hP hEps hNE hacc I (eclose g {g.start})

end MergeA3



section MergeB

variable (g : Automaton) (E : Nat) (sE : Nat × Nat)

/-- Edge characterization of the merged graph in the successor case. -/
theorem mergeNext_edges (hS : g.edges.filter (fun q => q.1 == E) = [sE])
    (a b : Nat) :
    ((a, b) ∈ (mergeNextState g E).edges ↔
      (a ≠ E ∧ b ≠ E) ∧ ((a, b) ∈ g.edges ∨ (b = sE.2 ∧ (a, E) ∈ g.edges))) := by
  unfold mergeNextState
  rw [hS]
  simp only [List.head?_cons, List.mem_filter, List.mem_append, List.mem_map,
    List.mem_filter, Bool.and_eq_true, bne_iff_ne, ne_eq, beq_iff_eq]
  constructor
  · rintro ⟨hmem, hne1, hne2⟩
    refine ⟨⟨hne1, hne2⟩, ?_⟩
    rcases hmem with h | ⟨⟨q1, q2⟩, ⟨hq, hq2⟩, heq⟩
    · exact Or.inl h
    · cases heq
      subst hq2
      exact Or.inr ⟨rfl, hq⟩
  · rintro ⟨⟨hne1, hne2⟩, h | ⟨hbs, haE⟩⟩
    · exact ⟨Or.inl h, hne1, hne2⟩
    · exact ⟨Or.inr ⟨(a, E), ⟨haE, rfl⟩, by rw [hbs]⟩, hne1, hne2⟩

theorem mergeNext_start : (mergeNextState g E).start = g.start := by
  unfold mergeNextState; split <;> rfl

theorem mergeNext_accept : (mergeNextState g E).accept = g.accept := by
  unfold mergeNextState; split <;> rfl

theorem mergeNext_isEps (u : Nat) :
    (mergeNextState g E).isEps u = g.isEps u := by
  unfold Automaton.isEps
  rw [mergeNextState_kinds]

theorem mergeNext_consumes (u c : Nat) :
    consumes (mergeNextState g E) u c = consumes g u c := by
  unfold consumes
  rw [mergeNextState_kinds]

/-- Out-edge uniqueness from the single-successor hypothesis. -/
theorem uniq_succ (hS : g.edges.filter (fun q => q.1 == E) = [sE])
    (y : Nat) (hy : (E, y) ∈ g.edges) : y = sE.2 := by
  have : (E, y) ∈ g.edges.filter (fun q => q.1 == E) :=
    List.mem_filter.mpr ⟨hy, by simp⟩
  rw [hS] at this
  simp at this
  exact congrArg Prod.snd this

theorem sE_mem (hS : g.edges.filter (fun q => q.1 == E) = [sE]) :
    (E, sE.2) ∈ g.edges := by
  have : sE ∈ g.edges.filter (fun q => q.1 == E) := by rw [hS]; simp
  have h2 := List.mem_filter.mp this
  have h1 : sE.1 = E := by simpa using h2.2
  have := h2.1
  rwa [show sE = (E, sE.2) from Prod.ext h1 rfl] at this

/-- Forward reach transfer for the successor merge. -/
theorem mergeNext_reach_fwd (hS : g.edges.filter (fun q => q.1 == E) = [sE])
    (hEps : g.isEps E = true)
    (u v : Nat) (hr : EpsReach (mergeNextState g E) u v) :
    EpsReach g u v := by
  induction hr with
  | refl => exact Relation.ReflTransGen.refl
  | tail _ hstep ih =>
    obtain ⟨heps, hedge⟩ := hstep
    rw [mergeNext_isEps] at heps
    rcases (mergeNext_edges g E sE hS _ _).mp hedge with ⟨⟨hne1, hne2⟩, hold | ⟨hbs, haE⟩⟩
    · exact ih.tail ⟨heps, hold⟩
    · exact (ih.tail ⟨heps, haE⟩).tail ⟨hEps, hbs ▸ sE_mem g E sE hS⟩

theorem mergeNext_reach_ne (hS : g.edges.filter (fun q => q.1 == E) = [sE])
    (u v : Nat) (hu : u ≠ E)
    (hr : EpsReach (mergeNextState g E) u v) : v ≠ E := by
  induction hr with
  | refl => exact hu
  | tail _ hstep _ =>
    obtain ⟨_, hedge⟩ := hstep
    exact ((mergeNext_edges g E sE hS _ _).mp hedge).1.2

/-- Backward reach transfer for the successor merge. -/
theorem mergeNext_reach_bwd (hS : g.edges.filter (fun q => q.1 == E) = [sE])
    (u v : Nat) (hu : u ≠ E) (hr : EpsReach g u v) :
    (v ≠ E → EpsReach (mergeNextState g E) u v) ∧
      (v = E → ∃ a, EpsReach (mergeNextState g E) u a ∧ g.isEps a = true ∧
        (a, E) ∈ g.edges ∧ a ≠ E) := by
  induction hr with
  | refl => exact ⟨fun _ => Relation.ReflTransGen.refl, fun hv => absurd hv hu⟩
  | tail hr' hstep ih =>
    obtain ⟨hepsb, hedge⟩ := hstep
    rename_i b c
    by_cases hb : b = E
    · obtain ⟨a, hra, hepsa, haE, hane⟩ := ih.2 hb
      have hcs : c = sE.2 := uniq_succ g E sE hS c (hb ▸ hedge)
      by_cases hc : c = E
      · exact ⟨fun h => absurd hc h, fun _ => ⟨a, hra, hepsa, haE, hane⟩⟩
      · refine ⟨fun _ => ?_, fun h => absurd h hc⟩
        refine hra.tail ⟨?_, ?_⟩
        · rw [mergeNext_isEps]; exact hepsa
        · exact (mergeNext_edges g E sE hS _ _).mpr ⟨⟨hane, hc⟩, Or.inr ⟨hcs, haE⟩⟩
    · have hrb := ih.1 hb
      by_cases hc : c = E
      · exact ⟨fun h => absurd hc h,
          fun _ => ⟨b, hrb, hepsb, hc ▸ hedge, hb⟩⟩
      · refine ⟨fun _ => ?_, fun h => absurd h hc⟩
        refine hrb.tail ⟨?_, ?_⟩
        · rw [mergeNext_isEps]; exact hepsb
        · exact (mergeNext_edges g E sE hS _ _).mpr ⟨⟨hb, hc⟩, Or.inl hedge⟩

/-- When every edge out of the state loops back to it, epsilon reach from it
goes nowhere else. -/
theorem reach_self_of_selfsucc (hall : ∀ y, (E, y) ∈ g.edges → y = E)
    (v : Nat) (hr : EpsReach g E v) : v = E := by
  induction hr with
  | refl => rfl
  | tail _ hstep ih =>
    obtain ⟨_, hedge⟩ := hstep
    exact hall _ (ih ▸ hedge)

/-- Closure correspondence for the successor merge. -/
theorem mergeNext_eclose_key (hS : g.edges.filter (fun q => q.1 == E) = [sE])
    (hEps : g.isEps E = true) (T : Finset Nat) :
    eclose (mergeNextState g E)
        ((T.erase E) ∪ (if E ∈ T then ({sE.2} : Finset Nat).erase E else ∅)) =
      (eclose g T).erase E := by
  ext v
  rw [mem_eclose, Finset.mem_erase, mem_eclose]
  constructor
  · rintro ⟨u, hu, hr⟩
    rcases Finset.mem_union.mp hu with h | h
    · obtain ⟨hune, huT⟩ := Finset.mem_erase.mp h
      exact ⟨mergeNext_reach_ne g E sE hS u v hune hr,
        u, huT, mergeNext_reach_fwd g E sE hS hEps u v hr⟩
    · by_cases hET : E ∈ T
      · rw [if_pos hET] at h
        obtain ⟨hune, hus⟩ := Finset.mem_erase.mp h
        have hus2 : u = sE.2 := Finset.mem_singleton.mp hus
        refine ⟨mergeNext_reach_ne g E sE hS u v hune hr, E, hET, ?_⟩
        exact Relation.ReflTransGen.head ⟨hEps, hus2 ▸ sE_mem g E sE hS⟩
          (mergeNext_reach_fwd g E sE hS hEps u v hr)
      · rw [if_neg hET] at h
        exact absurd h (Finset.not_mem_empty u)
  · rintro ⟨hvne, u, huT, hr⟩
    by_cases hu : u = E
    · have hET : E ∈ T := hu ▸ huT
      have hrE : EpsReach g E v := hu ▸ hr
      by_cases hsE : sE.2 = E
      · have hall : ∀ y, (E, y) ∈ g.edges → y = E :=
          fun y hy => (uniq_succ g E sE hS y hy).trans hsE
        exact absurd (reach_self_of_selfsucc g E hall v hrE) hvne
      · rcases Relation.ReflTransGen.cases_head hrE with h | ⟨w, hstep, hrw⟩
        · exact absurd h.symm hvne
        · obtain ⟨_, hEw⟩ := hstep
          have hws : w = sE.2 := uniq_succ g E sE hS w hEw
          have hwne : w ≠ E := hws ▸ hsE
          refine ⟨w, Finset.mem_union_right _ ?_, ?_⟩
          · rw [if_pos hET]
            exact Finset.mem_erase.mpr ⟨hwne, Finset.mem_singleton.mpr hws⟩
          · exact (mergeNext_reach_bwd g E sE hS w v hwne hrw).1 hvne
    · refine ⟨u, Finset.mem_union_left _ (Finset.mem_erase.mpr ⟨hu, huT⟩), ?_⟩
      exact (mergeNext_reach_bwd g E sE hS u v hu hr).1 hvne

/-- Consume correspondence for the successor merge. -/
theorem mergeNext_consume (hS : g.edges.filter (fun q => q.1 == E) = [sE])
    (hEps : g.isEps E = true) (F : Finset Nat) (c : Nat) :
    consumeSet (mergeNextState g E) (F.erase E) c =
      (((consumeSet g F c).erase E) ∪
        (if E ∈ consumeSet g F c then ({sE.2} : Finset Nat).erase E else ∅)) := by
  ext v
  rw [mem_consumeSet, Finset.mem_union, Finset.mem_erase, mem_consumeSet]
  constructor
  · rintro ⟨u, hu, hcons, hedge⟩
    obtain ⟨hune, huF⟩ := Finset.mem_erase.mp hu
    rw [mergeNext_consumes] at hcons
    rcases (mergeNext_edges g E sE hS _ _).mp hedge with ⟨⟨_, hvne⟩, hold | ⟨hvs, huE⟩⟩
    · exact Or.inl ⟨hvne, u, huF, hcons, hold⟩
    · have hET : E ∈ consumeSet g F c := mem_consumeSet.mpr ⟨u, huF, hcons, huE⟩
      refine Or.inr ?_
      rw [if_pos hET]
      exact Finset.mem_erase.mpr ⟨hvne, Finset.mem_singleton.mpr hvs⟩
  · rintro (⟨hvne, u, huF, hcons, hedge⟩ | h)
    · have hune : u ≠ E := by
        intro hcon
        rw [hcon, consumes_eps_false hEps] at hcons
        exact Bool.false_ne_true hcons
      refine ⟨u, Finset.mem_erase.mpr ⟨hune, huF⟩, ?_, ?_⟩
      · rw [mergeNext_consumes]; exact hcons
      · exact (mergeNext_edges g E sE hS _ _).mpr ⟨⟨hune, hvne⟩, Or.inl hedge⟩
    · by_cases hET : E ∈ consumeSet g F c
      · rw [if_pos hET] at h
        obtain ⟨hvne, hvs⟩ := Finset.mem_erase.mp h
        have hvs2 : v = sE.2 := Finset.mem_singleton.mp hvs
        obtain ⟨u, huF, hcons, huE⟩ := mem_consumeSet.mp hET
        have hune : u ≠ E := by
          intro hcon
          rw [hcon, consumes_eps_false hEps] at hcons
          exact Bool.false_ne_true hcons
        refine ⟨u, Finset.mem_erase.mpr ⟨hune, huF⟩, ?_, ?_⟩
        · rw [mergeNext_consumes]; exact hcons
        · exact (mergeNext_edges g E sE hS _ _).mpr ⟨⟨hune, hvne⟩, Or.inr ⟨hvs2, huE⟩⟩
      · rw [if_neg hET] at h
        exact absurd h (Finset.not_mem_empty v)

/-- Executor correspondence for the successor merge, frontier-wise. -/
theorem mergeNext_acceptsFrom (hS : g.edges.filter (fun q => q.1 == E) = [sE])
    (hEps : g.isEps E = true) (hacc : g.accept ≠ E) (I : List Nat) :
    ∀ F : Finset Nat,
      acceptsFrom (mergeNextState g E) (F.erase E) I = acceptsFrom g F I := by
  induction I with
  | nil =>
    intro F
    simp only [acceptsFrom, mergeNext_accept]
    congr 1
    simp only [eq_iff_iff, Finset.mem_erase, and_iff_right_iff_imp]
    intro _
    exact hacc
  | cons c rest ih =>
    intro F
    have h2 : eclose (mergeNextState g E) (consumeSet (mergeNextState g E) (F.erase E) c) =
        (eclose g (consumeSet g F c)).erase E := by
      rw [mergeNext_consume g E sE hS hEps F c]
      exact mergeNext_eclose_key g E sE hS hEps (consumeSet g F c)
    show (if eclose (mergeNextState g E) (consumeSet (mergeNextState g E) (F.erase E) c) = ∅
        then false
        else acceptsFrom (mergeNextState g E)
          (eclose (mergeNextState g E) (consumeSet (mergeNextState g E) (F.erase E) c)) rest) =
      (if eclose g (consumeSet g F c) = ∅ then false
        else acceptsFrom g (eclose g (consumeSet g F c)) rest)
    rw [h2]
    by_cases h : eclose g (consumeSet g F c) = ∅
    · rw [if_pos (by rw [h]; rfl), if_pos h]
    · by_cases h3 : (eclose g (consumeSet g F c)).erase E = ∅
      · rw [if_pos h3, if_neg h]
        have hsingle : eclose g (consumeSet g F c) = {E} := by
          obtain ⟨x, hx⟩ := Finset.nonempty_iff_ne_empty.mpr h
          rw [Finset.eq_singleton_iff_unique_mem]
          have hxE : x = E := by
            by_contra hxe
            exact Finset.not_mem_empty x (h3 ▸ Finset.mem_erase.mpr ⟨hxe, hx⟩)
          refine ⟨hxE ▸ hx, fun y hy => ?_⟩
          by_contra hye
          exact Finset.not_mem_empty y (h3 ▸ Finset.mem_erase.mpr ⟨hye, hy⟩)
        rw [hsingle]
        exact (acceptsFrom_eps_singleton g E hEps hacc rest).symm
      · rw [if_neg h3, if_neg h]
        exact ih (eclose g (consumeSet g F c))

/-- Language preservation of the successor merge. -/
theorem mergeNextState_preserves (hS : g.edges.filter (fun q => q.1 == E) = [sE])
    (hEps : g.isEps E = true)
    (hstart : g.start ≠ E) (hacc : g.accept ≠ E) (I : List Nat) :
    (mergeNextState g E).acceptString I = g.acceptString I := by
  unfold Automaton.acceptString
  have hstart2 : ({g.start} : Finset Nat) = ({g.start} : Finset Nat).erase E ∪
      (if E ∈ ({g.start} : Finset Nat) then ({sE.2} : Finset Nat).erase E else ∅) := by
    rw [Finset.erase_eq_of_not_mem (by simp [Ne.symm hstart]),
      if_neg (by simp [Ne.symm hstart]), Finset.union_empty]
  have hkey := mergeNext_eclose_key g E sE hS hEps {g.start}
  rw [mergeNext_start]
  conv_lhs => rw [hstart2, hkey]
  exact mergeNext_acceptsFrom g E sE hS hEps hacc I (eclose g {g.start})

end MergeB



/-- One optimizer iteration preserves the accepted language whenever the
inspected state is neither start nor accept. -/
theorem removeEpsilonsStep_preserves (g : Automaton) (i : Nat)
    (hstart : g.start ≠ i) (hacc : g.accept ≠ i) (I : List Nat) :
    (removeEpsilonsStep g i).acceptString I = g.acceptString I := by
  unfold removeEpsilonsStep
  by_cases hEps : g.isEps i
  · rw [if_pos hEps]
    by_cases hA : (g.prevCount i == 1 && decide (0 < g.nextCount i)) = true
    · rw [if_pos hA]
      obtain ⟨h1, h2⟩ := Bool.and_eq_true_iff.mp hA
      have hcount : (g.edges.filter fun q => q.2 == i).length = 1 := beq_iff_eq.mp h1
      obtain ⟨pE, hP⟩ := List.length_eq_one.mp hcount
      exact mergePrevState_preserves g i pE hP hEps (of_decide_eq_true h2) hstart hacc I
    · rw [if_neg hA]
      by_cases hB : (g.nextCount i == 1 && decide (0 < g.prevCount i)) = true
      · rw [if_pos hB]
        obtain ⟨h1, _⟩ := Bool.and_eq_true_iff.mp hB
        have hcount : (g.edges.filter fun q => q.1 == i).length = 1 := beq_iff_eq.mp h1
        obtain ⟨sE, hS⟩ := List.length_eq_one.mp hcount
        exact mergeNextState_preserves g i sE hS hEps hstart hacc I
      · rw [if_neg hB]
  · rw [if_neg hEps]

theorem removeEpsilonsStep_start (g : Automaton) (i : Nat) :
    (removeEpsilonsStep g i).start = g.start := by
  unfold removeEpsilonsStep
  split
  · split
    · exact mergePrev_start g i
    · split
      · exact mergeNext_start g i
      · rfl
  · rfl

theorem removeEpsilonsStep_accept (g : Automaton) (i : Nat) :
    (removeEpsilonsStep g i).accept = g.accept := by
  unfold removeEpsilonsStep
  split
  · split
    · exact mergePrev_accept g i
    · split
      · exact mergeNext_accept g i
      · rfl
  · rfl

theorem foldl_removeEpsilonsStep_preserves (l : List Nat) :
    ∀ g : Automaton, (∀ i ∈ l, g.start ≠ i ∧ g.accept ≠ i) →
      (∀ I, (l.foldl removeEpsilonsStep g).acceptString I = g.acceptString I) ∧
        (l.foldl removeEpsilonsStep g).start = g.start ∧
        (l.foldl removeEpsilonsStep g).accept = g.accept := by
  induction l with
  | nil => intro g _; exact ⟨fun _ => rfl, rfl, rfl⟩
  | cons i rest ih =>
    intro g hl
    have hstep1 := removeEpsilonsStep_start g i
    have hstep2 := removeEpsilonsStep_accept g i
    obtain ⟨ihI, ihs, iha⟩ := ih (removeEpsilonsStep g i) (by
      intro j hj
      rw [hstep1, hstep2]
      exact hl j (List.mem_cons_of_mem i hj))
    rw [List.foldl_cons]
    refine ⟨fun I => ?_, by rw [ihs, hstep1], by rw [iha, hstep2]⟩
    rw [ihI I]
    exact removeEpsilonsStep_preserves g i (hl i (List.mem_cons_self i rest)).1
      (hl i (List.mem_cons_self i rest)).2 I

/-- The optimizer pass preserves the accepted language of every automaton
built on the constructor start/accept states. -/
theorem removeEpsilons_preserves (g : Automaton)
    (hstart : g.start = 0) (hacc : g.accept = 1) (I : List Nat) :
    (removeEpsilons g).acceptString I = g.acceptString I := by
  unfold removeEpsilons
  exact (foldl_removeEpsilonsStep_preserves (List.range' 2 (g.numStates - 2)) g
    (by
      intro i hi
      have := (List.mem_range'_1.mp hi).1
      omega)).1 I



theorem beginGroup_start_accept (b : AutomatonBuilder) :
    b.beginGroup.automaton.start = b.automaton.start ∧
      b.beginGroup.automaton.accept = b.automaton.accept := by
  by_cases h : b.currentGroup < AutomatonBuilder.maxNumGroups - 1 <;>
    constructor <;>
    simp [AutomatonBuilder.beginGroup, Automaton.pushNew, Automaton.addNext, h]

theorem pushState_start_accept (b : AutomatonBuilder) (k : StateKind) :
    (b.pushState k).automaton.start = b.automaton.start ∧
      (b.pushState k).automaton.accept = b.automaton.accept :=
  ⟨rfl, rfl⟩

theorem endGroup_start_accept (b : AutomatonBuilder) :
    b.endGroup.automaton.start = b.automaton.start ∧
      b.endGroup.automaton.accept = b.automaton.accept := by
  unfold AutomatonBuilder.endGroup
  split
  · split <;> exact ⟨rfl, rfl⟩
  · exact ⟨rfl, rfl⟩

theorem driverStep_start_accept {b b2 : AutomatonBuilder} {c : Nat}
    (h : driverStep b c = some b2) :
    b2.automaton.start = b.automaton.start ∧
      b2.automaton.accept = b.automaton.accept := by
  unfold driverStep at h
  split_ifs at h
  · cases h; exact beginGroup_start_accept b
  · cases h; exact beginGroup_start_accept b
  · unfold AutomatonBuilder.pushBranch at h
    split at h
    · cases h; exact ⟨rfl, rfl⟩
    · exact Option.noConfusion h
  · unfold AutomatonBuilder.pushJump at h
    split at h
    · cases h; exact ⟨rfl, rfl⟩
    · exact Option.noConfusion h
  · cases h; exact pushState_start_accept b _
  · cases h; exact pushState_start_accept b _

theorem foldlM_driverStep_start_accept (P : List Nat) :
    ∀ b bout : AutomatonBuilder, P.foldlM driverStep b = some bout →
      bout.automaton.start = b.automaton.start ∧
        bout.automaton.accept = b.automaton.accept := by
  induction P with
  | nil =>
    intro b bout h
    cases h
    exact ⟨rfl, rfl⟩
  | cons c rest ih =>
    intro b bout h
    rw [List.foldlM_cons] at h
    rcases Option.bind_eq_some.mp h with ⟨b1, hb1, hrest⟩
    obtain ⟨h1, h2⟩ := driverStep_start_accept hb1
    obtain ⟨h3, h4⟩ := ih b1 bout hrest
    exact ⟨h3.trans h1, h4.trans h2⟩

theorem compileNoOpt_start_accept (P : List Nat) (g : Automaton)
    (h : compileNoOpt P = some g) : g.start = 0 ∧ g.accept = 1 := by
  unfold compileNoOpt at h
  rcases Option.map_eq_some'.mp h with ⟨b, hb, hg⟩
  obtain ⟨h1, h2⟩ := foldlM_driverStep_start_accept P _ b hb
  obtain ⟨h3, h4⟩ := endGroup_start_accept b
  rw [← hg]
  exact ⟨h3.trans h1, h4.trans h2⟩

/-- Claim C3: for every pattern and input, the matching verdict of the
compiled automaton is identical before and after the epsilon-removal pass
of the optimizer. -/
theorem C3_epsilon_removal_equivalence (P I : List Nat) (g : Automaton)
    (h : compileNoOpt P = some g) :
    (removeEpsilons g).acceptString I = g.acceptString I := by
  obtain ⟨hs, ha⟩ := compileNoOpt_start_accept P g h
  exact removeEpsilons_preserves g hs ha I

/-- Witness for C3 at the pattern and input consisting of the symbol a. -/
theorem C3_epsilon_removal_equivalence_witness :
    compileNoOpt [97] = some ((compileNoOpt [97]).getD Automaton.new) ∧
      (removeEpsilons ((compileNoOpt [97]).getD Automaton.new)).acceptString [97] =
        ((compileNoOpt [97]).getD Automaton.new).acceptString [97] :=
  ⟨by decide, C3_epsilon_removal_equivalence [97] [97] _ (by decide)⟩


end Re

namespace Re

/-! ### Claim C2: literal identity -/


theorem bind_pair_length (S : List Nat) :
    (S.flatMap (fun c => [StateKind.epsilon, StateKind.symbol c])).length = 2 * S.length := by
  induction S with
  | nil => rfl
  | cons c rest ih => simp [List.flatMap_cons, ih]; omega

theorem litKinds_length (S : List Nat) : (litKinds S).length = 2 * S.length + 2 := by
  unfold litKinds
  rw [List.length_append, bind_pair_length]
  simp [Nat.add_comm]

theorem litEdges_succ (n : Nat) :
    litEdges (n + 1) = litEdges n ++ [(curAt n, 2 * n + 2), (2 * n + 2, 2 * n + 3)] := by
  unfold litEdges
  rw [List.range_succ, List.flatMap_append]
  rfl

theorem litKinds_append_one (S : List Nat) (c : Nat) :
    litKinds (S ++ [c]) = litKinds S ++ [.epsilon, .symbol c] := by
  unfold litKinds
  rw [List.flatMap_append]
  simp

/-- Effect of one literal pushState on the canonical partial state. -/
theorem lit_pushState (S0 : List Nat) (c : Nat) (b : AutomatonBuilder)
    (hb : b.automaton = litPartial S0) (hcur : b.currentState = curAt S0.length)
    (hge : b.groupEnd 0 = some 1) (hcg : b.currentGroup = 1) :
    (b.pushState (.symbol c)).automaton = litPartial (S0 ++ [c]) ∧
      (b.pushState (.symbol c)).currentState = curAt (S0 ++ [c]).length ∧
      (b.pushState (.symbol c)).groupEnd 0 = some 1 ∧
      (b.pushState (.symbol c)).currentGroup = 1 := by
  refine ⟨?_, ?_, ?_, ?_⟩
  · show ((((b.automaton.pushNew .epsilon).2.pushNew (.symbol c)).2.addNext
        b.currentState (b.automaton.pushNew .epsilon).1).addNext
        (b.automaton.pushNew .epsilon).1 ((b.automaton.pushNew .epsilon).2.pushNew (.symbol c)).1)
      = litPartial (S0 ++ [c])
    rw [hb, hcur]
    unfold Automaton.pushNew Automaton.addNext litPartial
    simp only [Automaton.mk.injEq, litKinds_append_one, litEdges_succ, litKinds_length,
      List.length_append, List.append_assoc, List.cons_append, List.nil_append,
      List.length_cons, List.length_nil]
  · show ((b.automaton.pushNew .epsilon).2.pushNew (.symbol c)).1 = _
    show ((b.automaton.pushNew .epsilon).2.kinds).length = _
    rw [hb]
    show ((litPartial S0).kinds ++ [StateKind.epsilon]).length = _
    have : ((litPartial S0).kinds ++ [StateKind.epsilon]).length = 2 * S0.length + 3 := by
      rw [List.length_append]
      show (litKinds S0).length + 1 = _
      rw [litKinds_length]
    rw [this]
    unfold curAt
    rw [if_neg (by simp)]
    simp [List.length_append]
    omega
  · show (if 0 = b.currentGroup then some _ else b.groupEnd 0) = some 1
    rw [hcg, if_neg (by decide)]
    exact hge
  · exact hcg

/-- Driver fold over a literal suffix: starting from the canonical partial
builder state, it produces the canonical partial state of the extended
prefix. -/
theorem lit_fold (T : List Nat) (hT : ∀ c ∈ T, notSpecial c) :
    ∀ (S0 : List Nat) (b : AutomatonBuilder),
      b.automaton = litPartial S0 → b.currentState = curAt S0.length →
      b.groupEnd 0 = some 1 → b.currentGroup = 1 →
      ∃ bout : AutomatonBuilder, T.foldlM driverStep b = some bout ∧
        bout.automaton = litPartial (S0 ++ T) ∧
        bout.currentState = curAt (S0 ++ T).length ∧
        bout.groupEnd 0 = some 1 ∧ bout.currentGroup = 1 := by
  induction T with
  | nil =>
    intro S0 b hb hcur hge hcg
    exact ⟨b, rfl, by simpa using hb, by simpa using hcur, hge, hcg⟩
  | cons c T2 ih =>
    intro S0 b hb hcur hge hcg
    obtain ⟨hc40, hc41, hc124, hc43, hc46⟩ := hT c (List.mem_cons_self c T2)
    have hstep : driverStep b c = some (b.pushState (.symbol c)) := by
      unfold driverStep
      rw [if_neg hc40, if_neg hc41, if_neg hc124, if_neg hc43, if_neg hc46]
    obtain ⟨h1, h2, h3, h4⟩ := lit_pushState S0 c b hb hcur hge hcg
    obtain ⟨bout, hfold, hout⟩ := ih (fun x hx => hT x (List.mem_cons_of_mem c hx))
      (S0 ++ [c]) (b.pushState (.symbol c)) h1 h2 h3 h4
    refine ⟨bout, ?_, ?_⟩
    · rw [List.foldlM_cons, hstep]
      exact hfold
    · simpa using hout

/-- compileNoOpt on a literal pattern yields the canonical chain automaton. -/
theorem compileNoOpt_lit (S : List Nat) (hS : ∀ c ∈ S, notSpecial c) :
    compileNoOpt S = some (litAuto S) := by
  obtain ⟨bout, hfold, hauto, hcur, hge, hcg⟩ :=
    lit_fold S hS [] (AutomatonBuilder.mk' Automaton.new) rfl rfl rfl rfl
  unfold compileNoOpt
  rw [hfold]
  simp only [Option.map_some', Option.some.injEq]
  unfold AutomatonBuilder.endGroup
  rw [if_pos (by rw [hcg]; decide)]
  rw [hcg]
  show (match bout.groupEnd 0 with
    | some endState =>
      { bout with
        automaton := bout.automaton.addNext bout.currentState endState
        currentState := endState
        currentGroup := 1 - 1 }
    | none => bout).automaton = litAuto S
  rw [hge]
  show bout.automaton.addNext bout.currentState 1 = litAuto S
  rw [hauto, hcur]
  unfold Automaton.addNext litPartial litAuto
  simp

end Re

namespace Re

theorem bindKinds_get {S : List Nat} {i c : Nat} (h : S.get? i = some c) :
    (S.flatMap (fun x => [StateKind.epsilon, StateKind.symbol x])).get? (2 * i)
        = some .epsilon ∧
      (S.flatMap (fun x => [StateKind.epsilon, StateKind.symbol x])).get? (2 * i + 1)
        = some (.symbol c) := by
  induction S generalizing i with
  | nil => exact absurd h (by simp)
  | cons c0 S2 ih =>
    cases i with
    | zero =>
      have hc : c0 = c := by simpa using h
      subst hc
      exact ⟨rfl, rfl⟩
    | succ j =>
      have hj : S2.get? j = some c := by simpa using h
      have e1 : 2 * (j + 1) = 2 * j + 1 + 1 := by omega
      rw [List.flatMap_cons, e1]
      constructor
      · show (StateKind.epsilon :: StateKind.symbol c0 ::
          S2.flatMap (fun x => [StateKind.epsilon, StateKind.symbol x])).get? (2 * j + 1 + 1) = _
        rw [List.get?_cons_succ, List.get?_cons_succ]
        exact (ih hj).1
      · show (StateKind.epsilon :: StateKind.symbol c0 ::
          S2.flatMap (fun x => [StateKind.epsilon, StateKind.symbol x])).get? (2 * j + 1 + 1 + 1) = _
        rw [List.get?_cons_succ, List.get?_cons_succ]
        exact (ih hj).2

theorem litAuto_kind_even {S : List Nat} {i c : Nat} (h : S.get? i = some c) :
    (litAuto S).kinds.get? (2 * i + 2) = some .epsilon := by
  show (litKinds S).get? (2 * i + 2) = _
  unfold litKinds
  rw [List.get?_append_right (by simp)]
  have : 2 * i + 2 - ([StateKind.epsilon, StateKind.epsilon] : List StateKind).length = 2 * i := by
    simp
  rw [this]
  exact (bindKinds_get h).1

theorem litAuto_kind_odd {S : List Nat} {i c : Nat} (h : S.get? i = some c) :
    (litAuto S).kinds.get? (2 * i + 3) = some (.symbol c) := by
  show (litKinds S).get? (2 * i + 3) = _
  unfold litKinds
  rw [List.get?_append_right (by simp)]
  have : 2 * i + 3 - ([StateKind.epsilon, StateKind.epsilon] : List StateKind).length
      = 2 * i + 1 := by simp
  rw [this]
  exact (bindKinds_get h).2

theorem mem_litAuto_edges {S : List Nat} {a b : Nat} :
    ((a, b) ∈ (litAuto S).edges ↔
      (∃ i, i < S.length ∧ ((a = curAt i ∧ b = 2 * i + 2) ∨ (a = 2 * i + 2 ∧ b = 2 * i + 3)))
        ∨ (a = curAt S.length ∧ b = 1)) := by
  show (a, b) ∈ litEdges S.length ++ [(curAt S.length, 1)] ↔ _
  rw [List.mem_append]
  unfold litEdges
  simp [List.mem_flatMap, List.mem_range, Prod.ext_iff]

/-- Epsilon reach out of the epsilon state of pattern position j goes at
most one step, to its symbol state. -/
theorem lit_reach_from_even {S : List Nat} {j v : Nat} (hj : j < S.length)
    (hr : EpsReach (litAuto S) (2 * j + 2) v) : v = 2 * j + 2 ∨ v = 2 * j + 3 := by
  obtain ⟨cj, hcj⟩ : ∃ c, S.get? j = some c :=
    ⟨S[j], by simp [List.get?_eq_getElem?, List.getElem?_eq_getElem hj]⟩
  induction hr with
  | refl => exact Or.inl rfl
  | tail hr2 hstep ih =>
    obtain ⟨heps, hedge⟩ := hstep
    rename_i x v
    rcases ih with hx | hx
    · subst hx
      rcases mem_litAuto_edges.mp hedge with ⟨i, hi, ⟨ha, hb⟩ | ⟨ha, hb⟩⟩ | ⟨ha, hb⟩
      · unfold curAt at ha
        by_cases hi0 : i = 0 <;> simp [hi0] at ha <;> omega
      · have : i = j := by omega
        subst this
        exact Or.inr hb
      · unfold curAt at ha
        by_cases hn0 : S.length = 0 <;> simp [hn0] at ha <;> omega
    · subst hx
      unfold Automaton.isEps at heps
      rw [litAuto_kind_odd hcj] at heps
      exact absurd heps (by simp)

/-- Epsilon reach out of the start state of a nonempty literal chain. -/
theorem lit_reach_from_start {S : List Nat} {v : Nat} (hn : S.length ≠ 0)
    (hr : EpsReach (litAuto S) 0 v) : v = 0 ∨ v = 2 ∨ v = 3 := by
  obtain ⟨c0, hc0⟩ : ∃ c, S.get? 0 = some c :=
    ⟨S[0], by simp [List.get?_eq_getElem?,
      List.getElem?_eq_getElem (Nat.pos_of_ne_zero hn)]⟩
  induction hr with
  | refl => exact Or.inl rfl
  | tail hr2 hstep ih =>
    obtain ⟨heps, hedge⟩ := hstep
    rename_i x v
    rcases ih with hx | hx | hx
    · subst hx
      rcases mem_litAuto_edges.mp hedge with ⟨i, hi, ⟨ha, hb⟩ | ⟨ha, hb⟩⟩ | ⟨ha, hb⟩
      · unfold curAt at ha
        by_cases hi0 : i = 0
        · subst hi0; right; left; omega
        · simp [hi0] at ha
      · omega
      · unfold curAt at ha
        by_cases hn0 : S.length = 0
        · exact absurd hn0 hn
        · simp [hn0] at ha
    · subst hx
      rcases mem_litAuto_edges.mp hedge with ⟨i, hi, ⟨ha, hb⟩ | ⟨ha, hb⟩⟩ | ⟨ha, hb⟩
      · unfold curAt at ha
        by_cases hi0 : i = 0 <;> simp [hi0] at ha <;> omega
      · have : i = 0 := by omega
        subst this
        right; right; omega
      · unfold curAt at ha
        by_cases hn0 : S.length = 0 <;> simp [hn0] at ha <;> omega
    · subst hx
      unfold Automaton.isEps at heps
      have h0 : (2 : Nat) * 0 + 3 = 3 := by omega
      rw [← h0, litAuto_kind_odd hc0] at heps
      exact absurd heps (by simp)

/-- The accepted state of a literal chain has no outgoing edges. -/
theorem lit_reach_from_accept {S : List Nat} {v : Nat}
    (hr : EpsReach (litAuto S) 1 v) : v = 1 := by
  induction hr with
  | refl => rfl
  | tail hr2 hstep ih =>
    obtain ⟨_, hedge⟩ := hstep
    subst ih
    rcases mem_litAuto_edges.mp hedge with ⟨i, hi, ⟨ha, hb⟩ | ⟨ha, hb⟩⟩ | ⟨ha, hb⟩
    · unfold curAt at ha
      by_cases hi0 : i = 0 <;> simp [hi0] at ha <;> omega
    · omega
    · unfold curAt at ha
      by_cases hn0 : S.length = 0 <;> simp [hn0] at ha <;> omega

end Re

namespace Re

theorem lit_edges_from_even {S : List Nat} {j v : Nat} (hj : j < S.length) :
    ((2 * j + 2, v) ∈ (litAuto S).edges ↔ v = 2 * j + 3) := by
  rw [mem_litAuto_edges]
  constructor
  · rintro (⟨i, hi, ⟨ha, hb⟩ | ⟨ha, hb⟩⟩ | ⟨ha, hb⟩)
    · unfold curAt at ha
      by_cases hi0 : i = 0 <;> simp [hi0] at ha <;> omega
    · have : i = j := by omega
      subst this
      exact hb
    · unfold curAt at ha
      by_cases hn0 : S.length = 0 <;> simp [hn0] at ha <;> omega
  · intro hv
    exact Or.inl ⟨j, hj, Or.inr ⟨rfl, hv⟩⟩

theorem lit_edges_from_odd {S : List Nat} {j v : Nat} (hj : j < S.length) :
    ((2 * j + 3, v) ∈ (litAuto S).edges ↔
      (if j + 1 = S.length then v = 1 else v = 2 * j + 4)) := by
  rw [mem_litAuto_edges]
  by_cases hlast : j + 1 = S.length
  · rw [if_pos hlast]
    constructor
    · rintro (⟨i, hi, ⟨ha, hb⟩ | ⟨ha, hb⟩⟩ | ⟨ha, hb⟩)
      · unfold curAt at ha
        by_cases hi0 : i = 0
        · simp [hi0] at ha
        · simp [hi0] at ha; omega
      · omega
      · exact hb
    · intro hv
      refine Or.inr ⟨?_, hv⟩
      unfold curAt
      rw [if_neg (by omega)]
      omega
  · rw [if_neg hlast]
    constructor
    · rintro (⟨i, hi, ⟨ha, hb⟩ | ⟨ha, hb⟩⟩ | ⟨ha, hb⟩)
      · unfold curAt at ha
        by_cases hi0 : i = 0
        · simp [hi0] at ha
        · simp [hi0] at ha; omega
      · omega
      · unfold curAt at ha
        by_cases hn0 : S.length = 0
        · omega
        · simp [hn0] at ha; omega
    · intro hv
      refine Or.inl ⟨j + 1, by omega, Or.inl ⟨?_, by omega⟩⟩
      unfold curAt
      rw [if_neg (by omega)]
      omega

theorem lit_eclose_mid {S : List Nat} {j : Nat} (hj : j < S.length) :
    eclose (litAuto S) {2 * j + 2} = {2 * j + 2, 2 * j + 3} := by
  obtain ⟨cj, hcj⟩ : ∃ c, S.get? j = some c :=
    ⟨S[j], by simp [List.get?_eq_getElem?, List.getElem?_eq_getElem hj]⟩
  ext v
  rw [mem_eclose]
  constructor
  · rintro ⟨u, hu, hr⟩
    rw [Finset.mem_singleton] at hu
    subst hu
    have := lit_reach_from_even hj hr
    simp only [Finset.mem_insert, Finset.mem_singleton]
    exact this
  · intro hv
    simp only [Finset.mem_insert, Finset.mem_singleton] at hv
    rcases hv with hv | hv
    · exact ⟨2 * j + 2, Finset.mem_singleton_self _, hv ▸ Relation.ReflTransGen.refl⟩
    · refine ⟨2 * j + 2, Finset.mem_singleton_self _, ?_⟩
      refine Relation.ReflTransGen.single ⟨?_, ?_⟩
      · unfold Automaton.isEps
        rw [litAuto_kind_even hcj]
        rfl
      · exact (lit_edges_from_even hj).mpr hv

theorem lit_eclose_accept (S : List Nat) :
    eclose (litAuto S) {1} = {1} := by
  ext v
  rw [mem_eclose]
  constructor
  · rintro ⟨u, hu, hr⟩
    rw [Finset.mem_singleton] at hu
    subst hu
    rw [Finset.mem_singleton]
    exact lit_reach_from_accept hr
  · intro hv
    rw [Finset.mem_singleton] at hv
    exact ⟨1, Finset.mem_singleton_self _, hv ▸ Relation.ReflTransGen.refl⟩

theorem lit_eclose_start_pos {S : List Nat} (hn : S.length ≠ 0) :
    eclose (litAuto S) {0} = {0, 2, 3} := by
  obtain ⟨c0, hc0⟩ : ∃ c, S.get? 0 = some c :=
    ⟨S[0], by simp [List.get?_eq_getElem?,
      List.getElem?_eq_getElem (Nat.pos_of_ne_zero hn)]⟩
  have heps0 : (litAuto S).isEps 0 = true := rfl
  have hedge02 : ((0 : Nat), 2) ∈ (litAuto S).edges := by
    refine mem_litAuto_edges.mpr (Or.inl ⟨0, by omega, Or.inl ⟨rfl, rfl⟩⟩)
  have heps2 : (litAuto S).isEps 2 = true := by
    unfold Automaton.isEps
    have h0 : (2 : Nat) * 0 + 2 = 2 := by omega
    rw [← h0, litAuto_kind_even hc0]
    rfl
  have hedge23 : ((2 : Nat), 3) ∈ (litAuto S).edges := by
    have h2 : (2 : Nat) * 0 + 2 = 2 := by omega
    have h3 : (2 : Nat) * 0 + 3 = 3 := by omega
    refine mem_litAuto_edges.mpr (Or.inl ⟨0, by omega, Or.inr ⟨by omega, by omega⟩⟩)
  ext v
  rw [mem_eclose]
  constructor
  · rintro ⟨u, hu, hr⟩
    rw [Finset.mem_singleton] at hu
    subst hu
    have := lit_reach_from_start hn hr
    simp only [Finset.mem_insert, Finset.mem_singleton]
    exact this
  · intro hv
    simp only [Finset.mem_insert, Finset.mem_singleton] at hv
    refine ⟨0, Finset.mem_singleton_self _, ?_⟩
    rcases hv with hv | hv | hv
    · exact hv ▸ Relation.ReflTransGen.refl
    · exact hv ▸ Relation.ReflTransGen.single ⟨heps0, hedge02⟩
    · exact hv ▸ (Relation.ReflTransGen.single ⟨heps0, hedge02⟩).tail ⟨heps2, hedge23⟩

theorem lit_eclose_start_zero {S : List Nat} (hn : S.length = 0) :
    eclose (litAuto S) {0} = {0, 1} := by
  have hS : S = [] := List.length_eq_zero.mp hn
  subst hS
  ext v
  rw [mem_eclose]
  constructor
  · rintro ⟨u, hu, hr⟩
    rw [Finset.mem_singleton] at hu
    subst hu
    simp only [Finset.mem_insert, Finset.mem_singleton]
    induction hr with
    | refl => exact Or.inl rfl
    | tail hr2 hstep ih =>
      obtain ⟨heps, hedge⟩ := hstep
      rename_i x v
      rcases ih with hx | hx
      · subst hx
        rcases mem_litAuto_edges.mp hedge with ⟨i, hi, _⟩ | ⟨_, hb⟩
        · simp at hi
        · exact Or.inr hb
      · subst hx
        rcases mem_litAuto_edges.mp hedge with ⟨i, hi, _⟩ | ⟨ha, _⟩
        · simp at hi
        · exact absurd ha (by decide)
  · intro hv
    simp only [Finset.mem_insert, Finset.mem_singleton] at hv
    refine ⟨0, Finset.mem_singleton_self _, ?_⟩
    rcases hv with hv | hv
    · exact hv ▸ Relation.ReflTransGen.refl
    · refine hv ▸ Relation.ReflTransGen.single ⟨rfl, ?_⟩
      exact mem_litAuto_edges.mpr (Or.inr ⟨rfl, rfl⟩)

end Re

namespace Re


theorem lit_consumes_odd {S : List Nat} {j c cj : Nat} (hcj : S.get? j = some cj) :
    consumes (litAuto S) (2 * j + 3) c = (c == cj) := by
  unfold consumes
  rw [litAuto_kind_odd hcj]
  rfl

theorem lit_consumes_even {S : List Nat} {j c cj : Nat} (hcj : S.get? j = some cj) :
    consumes (litAuto S) (2 * j + 2) c = false := by
  unfold consumes
  rw [litAuto_kind_even hcj]
  rfl

theorem lit_consume_mid {S : List Nat} {j c cj : Nat} (hcj : S.get? j = some cj)
    (hj : j < S.length) :
    consumeSet (litAuto S) {2 * j + 2, 2 * j + 3} c =
      (if c = cj then (if j + 1 = S.length then {1} else {2 * j + 4}) else ∅) := by
  ext v
  rw [mem_consumeSet]
  constructor
  · rintro ⟨u, hu, hcons, hedge⟩
    simp only [Finset.mem_insert, Finset.mem_singleton] at hu
    rcases hu with hu | hu
    · subst hu
      rw [lit_consumes_even hcj] at hcons
      exact absurd hcons (by simp)
    · subst hu
      rw [lit_consumes_odd hcj] at hcons
      have hc : c = cj := by simpa using hcons
      rw [if_pos hc]
      have := (lit_edges_from_odd hj).mp hedge
      by_cases hlast : j + 1 = S.length
      · rw [if_pos hlast] at this ⊢
        simpa using this
      · rw [if_neg hlast] at this ⊢
        simpa using this
  · intro hv
    by_cases hc : c = cj
    · rw [if_pos hc] at hv
      refine ⟨2 * j + 3, by simp, ?_, ?_⟩
      · rw [lit_consumes_odd hcj]
        simpa using hc
      · rw [lit_edges_from_odd hj]
        by_cases hlast : j + 1 = S.length
        · rw [if_pos hlast] at hv ⊢
          simpa using hv
        · rw [if_neg hlast] at hv ⊢
          simpa using hv
    · rw [if_neg hc] at hv
      exact absurd hv (Finset.not_mem_empty v)

theorem lit_consume_start {S : List Nat} {c c0 : Nat} (hc0 : S.get? 0 = some c0)
    (hn : S.length ≠ 0) :
    consumeSet (litAuto S) {0, 2, 3} c =
      (if c = c0 then (if 0 + 1 = S.length then {1} else {2 * 0 + 4}) else ∅) := by
  have hmid := lit_consume_mid hc0 (Nat.pos_of_ne_zero hn) (c := c)
  have h2 : (2 : Nat) * 0 + 2 = 2 := by omega
  have h3 : (2 : Nat) * 0 + 3 = 3 := by omega
  rw [h2, h3] at hmid
  rw [← hmid]
  ext v
  rw [mem_consumeSet, mem_consumeSet]
  constructor
  · rintro ⟨u, hu, hcons, hedge⟩
    simp only [Finset.mem_insert, Finset.mem_singleton] at hu
    rcases hu with hu | hu | hu
    · subst hu
      exact absurd hcons (by rw [show consumes (litAuto S) 0 c = false from rfl]; simp)
    · exact ⟨u, by simp [hu], hcons, hedge⟩
    · exact ⟨u, by simp [hu], hcons, hedge⟩
  · rintro ⟨u, hu, hcons, hedge⟩
    simp only [Finset.mem_insert, Finset.mem_singleton] at hu
    exact ⟨u, by simp [hu], hcons, hedge⟩

theorem lit_consume_accept {S : List Nat} {c : Nat} :
    consumeSet (litAuto S) {1} c = ∅ := by
  ext v
  rw [mem_consumeSet]
  simp only [Finset.mem_singleton, Finset.not_mem_empty, iff_false]
  rintro ⟨u, hu, hcons, _⟩
  subst hu
  exact absurd hcons (by rw [show consumes (litAuto S) 1 c = false from rfl]; simp)

/-- Frontier-wise literal matching: from the frontier at position j, the
executor accepts exactly the remaining suffix. -/
theorem lit_master {S : List Nat} (hn : S.length ≠ 0) (I : List Nat) :
    ∀ j, j ≤ S.length →
      acceptsFrom (litAuto S) (litFrontier S j) I = decide (I = S.drop j) := by
  induction I with
  | nil =>
    intro j hj
    show decide ((1 : Nat) ∈ litFrontier S j) = decide ([] = S.drop j)
    rw [decide_eq_decide]
    by_cases hjn : j = S.length
    · subst hjn
      unfold litFrontier
      rw [if_pos rfl]
      simp [List.drop_length]
    · have hjlt : j < S.length := lt_of_le_of_ne hj hjn
      refine iff_of_false ?_ ?_
      · unfold litFrontier
        rw [if_neg hjn]
        by_cases hj0 : j = 0
        · rw [if_pos hj0]
          decide
        · rw [if_neg hj0]
          show ¬((1 : Nat) ∈ ({2 * j + 2, 2 * j + 3} : Finset Nat))
          simp only [Finset.mem_insert, Finset.mem_singleton]
          omega
      · intro hcon
        have : S.length ≤ j := by
          have := congrArg List.length hcon
          simp at this
          omega
        omega
  | cons c rest ih =>
    intro j hj
    by_cases hjn : j = S.length
    · subst hjn
      show (if eclose (litAuto S) (consumeSet (litAuto S) (litFrontier S S.length) c) = ∅
          then false
          else acceptsFrom (litAuto S)
            (eclose (litAuto S) (consumeSet (litAuto S) (litFrontier S S.length) c)) rest)
        = decide (c :: rest = S.drop S.length)
      unfold litFrontier
      rw [if_pos rfl, lit_consume_accept, eclose_empty, if_pos rfl]
      simp [List.drop_length]
    · have hjlt : j < S.length := lt_of_le_of_ne hj hjn
      obtain ⟨cj, hcj⟩ : ∃ x, S.get? j = some x :=
        ⟨S[j], by simp [List.get?_eq_getElem?, List.getElem?_eq_getElem hjlt]⟩
      have hSj : S[j] = cj := by
        simp [List.get?_eq_getElem?, List.getElem?_eq_getElem hjlt] at hcj
        exact hcj
      have hdrop : S.drop j = cj :: S.drop (j + 1) := by
        rw [List.drop_eq_getElem_cons hjlt, hSj]
      have hTeq : consumeSet (litAuto S) (litFrontier S j) c =
          (if c = cj then (if j + 1 = S.length then {1} else {2 * j + 4}) else ∅) := by
        by_cases hj0 : j = 0
        · subst hj0
          unfold litFrontier
          rw [if_neg hjn, if_pos rfl]
          have h4 : (2 : Nat) * 0 + 4 = 4 := by omega
          rw [lit_consume_start hcj hn]
        · unfold litFrontier
          rw [if_neg hjn, if_neg hj0]
          exact lit_consume_mid hcj hjlt
      show (if eclose (litAuto S) (consumeSet (litAuto S) (litFrontier S j) c) = ∅
          then false
          else acceptsFrom (litAuto S)
            (eclose (litAuto S) (consumeSet (litAuto S) (litFrontier S j) c)) rest)
        = decide (c :: rest = S.drop j)
      rw [hTeq]
      by_cases hc : c = cj
      · rw [if_pos hc]
        by_cases hlast : j + 1 = S.length
        · rw [if_pos hlast, lit_eclose_accept,
            if_neg (by simp [← Finset.nonempty_iff_ne_empty])]
          have hF : ({1} : Finset Nat) = litFrontier S (j + 1) := by
            unfold litFrontier
            rw [if_pos hlast]
          rw [hF, ih (j + 1) (by omega), hdrop, decide_eq_decide]
          constructor
          · intro h
            rw [hc, h]
          · intro h
            cases h
            rfl
        · rw [if_neg hlast]
          have h24 : (2 * j + 4) = 2 * (j + 1) + 2 := by omega
          rw [h24, lit_eclose_mid (by omega),
            if_neg (by simp [← Finset.nonempty_iff_ne_empty])]
          have hF : ({2 * (j + 1) + 2, 2 * (j + 1) + 3} : Finset Nat)
              = litFrontier S (j + 1) := by
            unfold litFrontier
            rw [if_neg hlast, if_neg (by omega)]
          rw [hF, ih (j + 1) (by omega), hdrop, decide_eq_decide]
          constructor
          · intro h
            rw [hc, h]
          · intro h
            cases h
            rfl
      · rw [if_neg hc, eclose_empty, if_pos rfl, hdrop]
        symm
        rw [decide_eq_false_iff_not]
        intro hcon
        cases hcon
        exact hc rfl

end Re

namespace Re

/-- The literal chain automaton accepts exactly the literal. -/
theorem lit_acceptString (S : List Nat) (I : List Nat) :
    (litAuto S).acceptString I = decide (I = S) := by
  unfold Automaton.acceptString
  by_cases hn : S.length = 0
  · have hS : S = [] := List.length_eq_zero.mp hn
    subst hS
    show acceptsFrom (litAuto []) (eclose (litAuto []) {0}) I = _
    rw [lit_eclose_start_zero hn]
    cases I with
    | nil => decide
    | cons c rest =>
      have hT : consumeSet (litAuto []) {0, 1} c = ∅ := by
        ext v
        rw [mem_consumeSet]
        simp only [Finset.mem_insert, Finset.mem_singleton, Finset.not_mem_empty, iff_false]
        rintro ⟨u, hu | hu, hcons, _⟩ <;> subst hu
        · exact absurd hcons (by rw [show consumes (litAuto []) 0 c = false from rfl]; simp)
        · exact absurd hcons (by rw [show consumes (litAuto []) 1 c = false from rfl]; simp)
      show (if eclose (litAuto []) (consumeSet (litAuto []) {0, 1} c) = ∅ then false
          else acceptsFrom (litAuto [])
            (eclose (litAuto []) (consumeSet (litAuto []) {0, 1} c)) rest)
        = decide (c :: rest = [])
      rw [hT, eclose_empty, if_pos rfl]
      simp
  · show acceptsFrom (litAuto S) (eclose (litAuto S) {0}) I = _
    rw [lit_eclose_start_pos hn]
    have hF : ({0, 2, 3} : Finset Nat) = litFrontier S 0 := by
      unfold litFrontier
      rw [if_neg (fun h => hn h.symm), if_pos rfl]
    rw [hF, lit_master hn I 0 (by omega), List.drop_zero]

/-- Claim C2: compiling a literal pattern succeeds and the resulting
automaton accepts exactly that literal: it accepts the literal itself and
rejects every other input, proper extensions and inputs with a leading
extra symbol included. -/
theorem C2_literal_identity (S : List Nat) (hS : ∀ c ∈ S, notSpecial c) :
    ∃ g, Regex.compile S = some g ∧ ∀ I, ((g.acceptString I = true) ↔ I = S) := by
  refine ⟨removeEpsilons (litAuto S), ?_, ?_⟩
  · unfold Regex.compile
    rw [compileNoOpt_lit S hS]
    rfl
  · intro I
    rw [removeEpsilons_preserves (litAuto S) rfl rfl I, lit_acceptString]
    simp

/-- Witness for C2 at the two-symbol literal ab. -/
theorem C2_literal_identity_witness :
    (∀ c ∈ [97, 98], notSpecial c) ∧
      ∃ g, Regex.compile [97, 98] = some g ∧
        ∀ I, ((g.acceptString I = true) ↔ I = [97, 98]) :=
  ⟨by decide, C2_literal_identity [97, 98] (by decide)⟩

end Re

namespace Re

/-! ### Claim C8: the clone traversal -/


theorem ReachAvoid.mono {g g2 : Automaton} {endSt a b : Nat}
    (hsub : ∀ q ∈ g.edges, q ∈ g2.edges) (h : ReachAvoid g endSt a b) :
    ReachAvoid g2 endSt a b :=
  Relation.ReflTransGen.mono (fun _ _ hxy => ⟨hxy.1, hsub _ hxy.2⟩) h

theorem lookupClone_mem {c v : Nat} : ∀ {l : List (Nat × Nat)},
    lookupClone c l = some v → (c, v) ∈ l := by
  intro l
  induction l with
  | nil => intro h; exact Option.noConfusion h
  | cons q rest ih =>
    intro h
    rw [lookupClone] at h
    by_cases hq : q.1 = c
    · rw [if_pos hq] at h
      cases h
      exact List.mem_cons.mpr (Or.inl (Prod.ext hq.symm rfl))
    · rw [if_neg hq] at h
      exact List.mem_cons_of_mem q (ih h)

theorem lookupClone_none_not_key {c : Nat} : ∀ {l : List (Nat × Nat)},
    lookupClone c l = none → c ∉ l.map Prod.fst := by
  intro l
  induction l with
  | nil => intro _ h; exact absurd h (by simp)
  | cons q rest ih =>
    intro h hmem
    rw [lookupClone] at h
    by_cases hq : q.1 = c
    · rw [if_pos hq] at h
      exact Option.noConfusion h
    · rw [if_neg hq] at h
      rcases List.mem_map.mp hmem with ⟨x, hx, hx1⟩
      rcases List.mem_cons.mp hx with hx | hx
      · exact hq (hx ▸ hx1)
      · exact ih h (List.mem_map.mpr ⟨x, hx, hx1⟩)

theorem keys_nodup_functional {l : List (Nat × Nat)} (h : (l.map Prod.fst).Nodup)
    {u a b : Nat} (ha : (u, a) ∈ l) (hb : (u, b) ∈ l) : a = b := by
  induction l with
  | nil => exact absurd ha (by simp)
  | cons q rest ih =>
    rw [List.map_cons, List.nodup_cons] at h
    rcases List.mem_cons.mp ha with ha | ha <;> rcases List.mem_cons.mp hb with hb | hb
    · rw [← hb] at ha
      exact (Prod.ext_iff.mp ha).2
    · exact absurd (List.mem_map.mpr ⟨(u, b), hb, by rw [← ha]⟩) h.1
    · exact absurd (List.mem_map.mpr ⟨(u, a), ha, by rw [← hb]⟩) h.1
    · exact ih h.2 ha hb

theorem mem_nextList {g : Automaton} {c w : Nat} :
    w ∈ g.nextList c ↔ (c, w) ∈ g.edges := by
  unfold Automaton.nextList
  simp only [List.mem_map, List.mem_filter, beq_iff_eq]
  constructor
  · rintro ⟨⟨q1, q2⟩, ⟨hq, hq1⟩, hq2⟩
    cases hq1; cases hq2; exact hq
  · intro h
    exact ⟨(c, w), ⟨h, rfl⟩, rfl⟩


/-- Conclusions drawn from the invariant once the queue has drained. -/
theorem CloneInv_conclusions {E0 : List (Nat × Nat)} {n0 endSt s : Nat}
    {g : Automaton} {visited : List (Nat × Nat)}
    (h : CloneInv E0 n0 endSt s g visited []) :
    (visited.map Prod.fst).Nodup ∧
      (∀ p ∈ visited, n0 ≤ p.2 ∧ g.kinds.get? p.2 = g.kinds.get? p.1) ∧
      (∀ p ∈ visited, ReachAvoid g endSt s p.1) ∧
      (∀ p ∈ visited, p.1 ≠ endSt → ∀ v, (p.1, v) ∈ E0 →
        ∃ v2, (v, v2) ∈ visited ∧ (p.2, v2) ∈ g.edges) := by
  obtain ⟨_, _, h3, h4, h5, _, h7, _⟩ := h
  refine ⟨h3, fun p hp => ⟨(h4 p hp).1, (h4 p hp).2.2.2⟩, h5, fun p hp hne v hv => ?_⟩
  rcases h7 p hp hne v hv with h | h
  · exact h
  · exact absurd h (by simp)

end Re

namespace Re

/-- Invariant preservation for a revisit: only the edge to the existing
clone is added and the current visit is retired. -/
theorem CloneInv_revisit {E0 : List (Nat × Nat)} {n0 endSt s : Nat}
    {g : Automaton} {visited : List (Nat × Nat)}
    {c p c2 : Nat} {stack : List (Nat × Nat)}
    (hInv : CloneInv E0 n0 endSt s g visited ((c, p) :: stack))
    (hlook : lookupClone c visited = some c2) :
    CloneInv E0 n0 endSt s (g.addNext p c2) visited stack := by
  obtain ⟨I1, I2, I3, I4, I5, I6, I7, I9⟩ := hInv
  have hc2mem : (c, c2) ∈ visited := lookupClone_mem hlook
  have hc2lt : c2 < g.numStates := (I4 _ hc2mem).2.1
  have hplt : p < g.numStates := (I6 _ (List.mem_cons_self _ _)).2.1
  have hsub : ∀ q ∈ g.edges, q ∈ (g.addNext p c2).edges := by
    intro q hq
    show q ∈ g.edges ++ [(p, c2)]
    exact List.mem_append_left _ hq
  have hnew : ((p, c2) : Nat × Nat) ∈ (g.addNext p c2).edges := by
    show (p, c2) ∈ g.edges ++ [(p, c2)]
    exact List.mem_append_right _ (by simp)
  refine ⟨I1, fun q hq => hsub q (I2 q hq), I3, I4, ?_, ?_, ?_, ?_⟩
  · exact fun p0 hp0 => (I5 p0 hp0).mono hsub
  · intro q hq
    obtain ⟨h1, h2, h3⟩ := I6 q (List.mem_cons_of_mem _ hq)
    exact ⟨h1, h2, h3.mono hsub⟩
  · intro p0 hp0 hne v hv
    rcases I7 p0 hp0 hne v hv with ⟨v2, hv2, he⟩ | hq
    · exact Or.inl ⟨v2, hv2, hsub _ he⟩
    · rcases List.mem_cons.mp hq with hq | hq
      · have hvc : v = c := congrArg Prod.fst hq
        have hpp : p0.2 = p := congrArg Prod.snd hq
        subst hvc
        rw [hpp]
        exact Or.inl ⟨c2, hc2mem, hnew⟩
      · exact Or.inr hq
  · intro q hq
    rcases List.mem_append.mp hq with hq | hq
    · exact I9 q hq
    · have : q = (p, c2) := by simpa using hq
      rw [this]
      exact ⟨hplt, hc2lt⟩

/-- Invariant preservation for a first visit: the state is cloned, linked
after its predecessor, recorded in the visited map, and (unless it is the
group end) its successors are queued. -/
theorem CloneInv_first_visit {E0 : List (Nat × Nat)} {n0 endSt s : Nat}
    {g : Automaton} {visited : List (Nat × Nat)}
    {c p : Nat} {stack : List (Nat × Nat)}
    (hInv : CloneInv E0 n0 endSt s g visited ((c, p) :: stack))
    (hlook : lookupClone c visited = none) :
    CloneInv E0 n0 endSt s
      (({ g with kinds := g.kinds ++ [g.kindAt c] } : Automaton).addNext p g.numStates)
      (visited ++ [(c, g.numStates)])
      ((((if c ≠ endSt then
          (({ g with kinds := g.kinds ++ [g.kindAt c] } : Automaton).addNext
            p g.numStates).nextList c
        else []).map fun v => (v, g.numStates)).reverse) ++ stack) := by
  obtain ⟨I1, I2, I3, I4, I5, I6, I7, I9⟩ := hInv
  set c2 := g.numStates with hc2
  set g3 := (({ g with kinds := g.kinds ++ [g.kindAt c] } : Automaton).addNext p c2) with hg3
  have hclt : c < g.numStates := (I6 _ (List.mem_cons_self _ _)).1
  have hplt : p < g.numStates := (I6 _ (List.mem_cons_self _ _)).2.1
  have hRAc : ReachAvoid g endSt s c := (I6 _ (List.mem_cons_self _ _)).2.2
  have hg3kinds : g3.kinds = g.kinds ++ [g.kindAt c] := rfl
  have hg3edges : g3.edges = g.edges ++ [(p, c2)] := rfl
  have hg3ns : g3.numStates = g.numStates + 1 := by
    show (g.kinds ++ [g.kindAt c]).length = g.kinds.length + 1
    simp
  have hsub : ∀ q ∈ g.edges, q ∈ g3.edges := by
    intro q hq
    rw [hg3edges]
    exact List.mem_append_left _ hq
  have hnew : ((p, c2) : Nat × Nat) ∈ g3.edges := by
    rw [hg3edges]
    exact List.mem_append_right _ (by simp)
  have hI9 : ∀ q ∈ g3.edges, q.1 < g3.numStates ∧ q.2 < g3.numStates := by
    intro q hq
    rw [hg3edges] at hq
    rcases List.mem_append.mp hq with hq | hq
    · obtain ⟨h1, h2⟩ := I9 q hq
      omega
    · have : q = (p, c2) := by simpa using hq
      rw [this]
      constructor <;> omega
  have hget_stable : ∀ i, i < g.numStates → g3.kinds.get? i = g.kinds.get? i := by
    intro i hi
    rw [hg3kinds]
    exact List.get?_append hi
  have hget_c2 : g3.kinds.get? c2 = g.kinds.get? c := by
    rw [hg3kinds, hc2]
    show (g.kinds ++ [g.kindAt c]).get? g.kinds.length = _
    rw [List.get?_concat_length]
    obtain ⟨k, hk⟩ : ∃ k, g.kinds.get? c = some k :=
      ⟨g.kinds[c], by simp [List.get?_eq_getElem?, List.getElem?_eq_getElem hclt]⟩
    rw [hk]
    unfold Automaton.kindAt
    rw [hk]
    rfl
  have hkeys : c ∉ visited.map Prod.fst := lookupClone_none_not_key hlook
  refine ⟨by omega, fun q hq => hsub q (I2 q hq), ?_, ?_, ?_, ?_, ?_, hI9⟩
  · rw [List.map_append]
    refine List.Nodup.append I3 (by simp) ?_
    intro x hx hx2
    simp only [List.map_cons, List.map_nil, List.mem_singleton] at hx2
    rw [hx2] at hx
    exact hkeys hx
  · intro p0 hp0
    rcases List.mem_append.mp hp0 with hp0 | hp0
    · obtain ⟨h1, h2, h3, h4⟩ := I4 p0 hp0
      exact ⟨h1, by omega, by omega,
        by rw [hget_stable _ h2, hget_stable _ h3]; exact h4⟩
    · have hp0e : p0 = (c, c2) := by simpa using hp0
      rw [hp0e]
      refine ⟨?_, by show c2 < g3.numStates; omega,
        by show c < g3.numStates; omega, ?_⟩
      · show n0 ≤ c2
        exact I1
      · show g3.kinds.get? c2 = g3.kinds.get? c
        exact hget_c2.trans (hget_stable c hclt).symm
  · intro p0 hp0
    rcases List.mem_append.mp hp0 with hp0 | hp0
    · exact (I5 p0 hp0).mono hsub
    · have hp0e : p0 = (c, c2) := by simpa using hp0
      rw [hp0e]
      exact hRAc.mono hsub
  · intro q hq
    rcases List.mem_append.mp hq with hq | hq
    · rcases List.mem_reverse.mp hq with hq2
      rcases List.mem_map.mp hq2 with ⟨w, hw, hwq⟩
      by_cases hce : c ≠ endSt
      · rw [if_pos hce] at hw
        have hedge : (c, w) ∈ g3.edges := mem_nextList.mp hw
        obtain ⟨_, hwlt⟩ := hI9 _ hedge
        rw [← hwq]
        refine ⟨hwlt, by show c2 < g3.numStates; omega, ?_⟩
        exact (hRAc.mono hsub).tail ⟨hce, hedge⟩
      · rw [if_neg hce] at hw
        exact absurd hw (by simp)
    · obtain ⟨h1, h2, h3⟩ := I6 q (List.mem_cons_of_mem _ hq)
      exact ⟨by omega, by omega, h3.mono hsub⟩
  · intro p0 hp0 hne v hv
    rcases List.mem_append.mp hp0 with hp0 | hp0
    · rcases I7 p0 hp0 hne v hv with ⟨v2, hv2, he⟩ | hq
      · exact Or.inl ⟨v2, List.mem_append_left _ hv2, hsub _ he⟩
      · rcases List.mem_cons.mp hq with hq | hq
        · have hvc : v = c := congrArg Prod.fst hq
          have hpp : p0.2 = p := congrArg Prod.snd hq
          subst hvc
          rw [hpp]
          exact Or.inl ⟨c2, List.mem_append_right _ (by simp), hnew⟩
        · exact Or.inr (List.mem_append_right _ hq)
    · have hp0e : p0 = (c, c2) := by simpa using hp0
      rw [hp0e] at hne hv ⊢
      refine Or.inr (List.mem_append_left _ ?_)
      rw [List.mem_reverse]
      refine List.mem_map.mpr ⟨v, ?_, rfl⟩
      rw [if_pos hne]
      exact mem_nextList.mpr (hsub _ (I2 _ hv))

end Re

namespace Re

/-- Main specification of the clone worklist: from any state satisfying the
invariant, if the loop drains its queue then the visited map is functional,
maps originals to fresh same-kind clones, visits only states reachable from
the root without following edges out of the group end, and is an edge
homomorphism on the original edges away from the end state. -/
theorem cloneLoop_spec (E0 : List (Nat × Nat)) (n0 endSt s : Nat) :
    ∀ (fuel : Nat) (g : Automaton) (visited : List (Nat × Nat))
      (cv : Nat × Nat) (stack : List (Nat × Nat)),
      CloneInv E0 n0 endSt s g visited (cv :: stack) →
      (cloneLoop g endSt visited cv stack fuel).2.2.2 = true →
      (((cloneLoop g endSt visited cv stack fuel).2.1.map Prod.fst).Nodup ∧
        (∀ p ∈ (cloneLoop g endSt visited cv stack fuel).2.1,
          n0 ≤ p.2 ∧ (cloneLoop g endSt visited cv stack fuel).1.kinds.get? p.2
            = (cloneLoop g endSt visited cv stack fuel).1.kinds.get? p.1) ∧
        (∀ p ∈ (cloneLoop g endSt visited cv stack fuel).2.1,
          ReachAvoid (cloneLoop g endSt visited cv stack fuel).1 endSt s p.1) ∧
        (∀ p ∈ (cloneLoop g endSt visited cv stack fuel).2.1, p.1 ≠ endSt →
          ∀ v, (p.1, v) ∈ E0 →
            ∃ v2, (v, v2) ∈ (cloneLoop g endSt visited cv stack fuel).2.1 ∧
              (p.2, v2) ∈ (cloneLoop g endSt visited cv stack fuel).1.edges)) := by
  intro fuel
  induction fuel with
  | zero =>
    intro g visited cv stack _ hok
    rw [cloneLoop] at hok
    exact Bool.noConfusion hok
  | succ n ih =>
    intro g visited cv stack hInv hok
    obtain ⟨c, p⟩ := cv
    rw [cloneLoop] at hok ⊢
    cases hv : lookupClone c visited with
    | some c2 =>
      rw [hv] at hok
      dsimp only at hok ⊢
      have hInv2 := CloneInv_revisit hInv hv
      cases stack with
      | nil =>
        exact CloneInv_conclusions hInv2
      | cons v rest =>
        exact ih _ _ _ _ hInv2 hok
    | none =>
      rw [hv] at hok
      dsimp only at hok ⊢
      have hInv2 := CloneInv_first_visit hInv hv
      split
      · next heq =>
        rw [heq] at hInv2
        exact CloneInv_conclusions hInv2
      · next v rest heq =>
        rw [heq] at hInv2 hok
        dsimp only at hok
        exact ih _ _ _ _ hInv2 hok

end Re

namespace Re

/-- C8: for every builder whose current group frame holds states s (start)
and e (end) of the graph, with well-formed edges, a cloneCurrentGroup run
that drains its worklist (the C++ do/while always runs to completion)
traverses from the frame start s: the visited map is functional (old state
to new state), each first visit deep-clones the state into a fresh index of
the same kind, only states reachable from s without following edges out of
the frame end e are ever visited, and every original edge leaving a visited
state other than e is reproduced between the clones, so the cycle structure
of the original subgraph is reproduced inside the clone. -/
theorem C8_cloneCurrentGroup (b : AutomatonBuilder) (s e : Nat)
    (hgs : b.groupStart b.currentGroup = some s)
    (hge : b.groupEnd b.currentGroup = some e)
    (hs : s < b.automaton.numStates)
    (hcur : b.currentState < b.automaton.numStates)
    (hedges : ∀ q ∈ b.automaton.edges,
      q.1 < b.automaton.numStates ∧ q.2 < b.automaton.numStates)
    (hok : b.cloneRun.2.2.2 = true) :
    (∀ u v1 v2, (u, v1) ∈ b.cloneRun.2.1 → (u, v2) ∈ b.cloneRun.2.1 → v1 = v2) ∧
      (∀ p ∈ b.cloneRun.2.1, b.automaton.numStates ≤ p.2 ∧
        b.cloneRun.1.kinds.get? p.2 = b.cloneRun.1.kinds.get? p.1) ∧
      (∀ p ∈ b.cloneRun.2.1, ReachAvoid b.cloneRun.1 e s p.1) ∧
      (∀ p ∈ b.cloneRun.2.1, p.1 ≠ e → ∀ v, (p.1, v) ∈ b.automaton.edges →
        ∃ v2, (v, v2) ∈ b.cloneRun.2.1 ∧ (p.2, v2) ∈ b.cloneRun.1.edges) := by
  have hrun : b.cloneRun
      = cloneLoop b.automaton e [] (s, b.currentState) [] (cloneFuel b.automaton) := by
    unfold AutomatonBuilder.cloneRun
    rw [hgs, hge]
  rw [hrun] at hok ⊢
  have hInv0 : CloneInv b.automaton.edges b.automaton.numStates e s
      b.automaton [] [(s, b.currentState)] := by
    refine ⟨le_refl _, fun q hq => hq, by simp, ?_, ?_, ?_, ?_, hedges⟩
    · intro p hp; exact absurd hp (by simp)
    · intro p hp; exact absurd hp (by simp)
    · intro q hq
      have hq' : q = (s, b.currentState) := by
        rcases List.mem_cons.mp hq with h | h
        · exact h
        · exact absurd h (by simp)
      rw [hq']
      exact ⟨hs, hcur, Relation.ReflTransGen.refl⟩
    · intro p hp; exact absurd hp (by simp)
  have hmain := cloneLoop_spec b.automaton.edges b.automaton.numStates e s
    (cloneFuel b.automaton) b.automaton [] (s, b.currentState) [] hInv0 hok
  exact ⟨fun u v1 v2 h1 h2 => keys_nodup_functional hmain.1 h1 h2,
    hmain.2.1, hmain.2.2.1, hmain.2.2.2⟩

/-- Witness: the builder obtained by pushing a symbol state on a fresh
graph; its current group frame is (2, 3), the clone run drains and the
conclusions of the traversal theorem hold for it. -/
theorem C8_cloneCurrentGroup_witness :
    let b := (AutomatonBuilder.mk' Automaton.new).pushState (StateKind.symbol 97)
    (∀ u v1 v2, (u, v1) ∈ b.cloneRun.2.1 → (u, v2) ∈ b.cloneRun.2.1 → v1 = v2) ∧
      (∀ p ∈ b.cloneRun.2.1, b.automaton.numStates ≤ p.2 ∧
        b.cloneRun.1.kinds.get? p.2 = b.cloneRun.1.kinds.get? p.1) ∧
      (∀ p ∈ b.cloneRun.2.1, ReachAvoid b.cloneRun.1 3 2 p.1) ∧
      (∀ p ∈ b.cloneRun.2.1, p.1 ≠ 3 → ∀ v, (p.1, v) ∈ b.automaton.edges →
        ∃ v2, (v, v2) ∈ b.cloneRun.2.1 ∧ (p.2, v2) ∈ b.cloneRun.1.edges) :=
  C8_cloneCurrentGroup ((AutomatonBuilder.mk' Automaton.new).pushState (StateKind.symbol 97)) 2 3
    (by decide) (by decide) (by decide) (by decide) (by decide) (by decide)

end Re
